import Mathlib

/-!
# Verification of the DHT routing table, peer store, token scheme and engine loop

Shallow embedding of the `dht` repository (Go).  Identifiers are 20-byte
strings; we model Go strings/byte-strings as `List Nat` with each element a
byte value.  Go maps are modelled as association lists, the `container/ring`
cyclic list as a `List` whose head is the ring cursor, and mutation as
explicit state passing.
-/

namespace Dht

/-- `KNodes` from `util`: each query returns up to this number of nodes. -/
def KNodes : Nat := 8

/-- `MaxNodePendingQueries` from `util`. -/
def MaxNodePendingQueries : Nat := 5

/-- Bit `i` (most-significant first) of a byte string, as the source reads it:
`chr := ID[i/8]; bit := i%8; (chr<<bit)&128 != 0`.  For `chr < 256` and
`bit ≤ 7`, Go's byte truncation of `chr<<bit` never affects bit 7, so the
untruncated `Nat` shift gives the same test.  Out-of-range indices read the
byte as 0 (Go would panic; all call sites guard `i < len*8`). -/
def idBit (id : List Nat) (i : Nat) : Bool :=
  (((id.getD (i / 8) 0) <<< (i % 8)) &&& 128) ≠ 0

/-- `QueryType` from `remoteNode`: kind of an in-flight query plus the
infohash it was about (`srcNode` is never read; omitted). -/
structure QueryType where
  qtype : String
  IH : List Nat := []
deriving DecidableEq, Repr

/-- `RemoteNode` from `remoteNode`: the fields the verified operations read.
`Address`/`AddressBinaryFormat` are kept as opaque byte strings; times are
integers (Go `time.Time` instants); `pendingQueries`/`pastQueries` are
association lists keyed by the transaction id. -/
structure RemoteNode where
  ID : List Nat
  AddressString : List Nat := []
  AddressBinaryFormat : List Nat := []
  LastQueryID : Nat := 0
  PendingQueries : List (String × QueryType) := []
  PastQueries : List (String × QueryType) := []
  Reachable : Bool := false
  LastResponseTime : Int := 0
  LastSearchTime : Int := 0
deriving DecidableEq, Repr

/-- `nTree` from the routing table: binary prefix tree with path compression.
A Go `*nTree` that is `nil` is `nTree.nil`; `&nTree{}` is
`nTree.node .nil .nil none`. -/
inductive nTree where
  | nil : nTree
  | node (zero one : nTree) (value : Option RemoteNode) : nTree
deriving DecidableEq, Repr

/-- A fresh compressed leaf, `&nTree{value: newNode}`. -/
def nTree.leafOf (r : RemoteNode) : nTree := .node .nil .nil (some r)

/-- `nTree.BranchOut`: uncompress two colliding nodes.  It is always invoked
on a node whose value was just cleared and whose children are `nil` (a
compressed leaf), so we rebuild the subtree from an empty node.  When the
bits finally differ, the source calls `n.Put(n1, i)` then `n.Put(n2, i)` on
that empty node, which simply creates the two leaves on their respective bit
sides; we inline those two leaf creations.  If the ids never differ before
the id runs out, Go indexes `ID[i/8]` out of range and panics; that branch
returns an empty node and is unreachable for distinct equal-length ids. -/
def nTree.BranchOut (n1 n2 : RemoteNode) (i : Nat) : nTree :=
  if h : i < n1.ID.length * 8 ∧ i < n2.ID.length * 8 then
    let bit := idBit n1.ID i
    let bit2 := idBit n2.ID i
    if bit ≠ bit2 then
      if bit then .node (nTree.leafOf n2) (nTree.leafOf n1) none
      else .node (nTree.leafOf n1) (nTree.leafOf n2) none
    else
      if bit then .node .nil (nTree.BranchOut n1 n2 (i + 1)) none
      else .node (nTree.BranchOut n1 n2 (i + 1)) .nil none
  else
    .node .nil .nil none
termination_by n1.ID.length * 8 - i
decreasing_by omega

/-- `nTree.Put`: insert `newNode` at depth `i`, walking its id bits.
Calling `Put` on a `nil` tree dereferences a nil pointer in Go; that case is
unreachable (the recursion creates a leaf instead of descending into `nil`)
and returns `nil` here. -/
def nTree.Put : nTree → RemoteNode → Nat → nTree
  | .nil, _, _ => .nil
  | .node z o v, newNode, i =>
    if i ≥ newNode.ID.length * 8 then
      -- Replaces the existing value, if any.
      .node z o (some newNode)
    else
      match v with
      | some old =>
        if old.ID = newNode.ID then
          -- Replace existing compressed value.
          .node z o (some newNode)
        else
          -- Compression collision: clear the value and branch out.  The
          -- children of a compressed leaf are both nil.
          nTree.BranchOut newNode old i
      | none =>
        if idBit newNode.ID i then
          match o with
          | .nil => .node z (nTree.leafOf newNode) none
          | o => .node z (nTree.Put o newNode (i + 1)) none
        else
          match z with
          | .nil => .node (nTree.leafOf newNode) o none
          | z => .node (nTree.Put z newNode (i + 1)) o none

/-- `nTree.Insert`: recursive node insertion from the root. -/
def nTree.Insert (n : nTree) (newNode : RemoteNode) : nTree :=
  n.Put newNode 0

/-- `nTree.Traverse`: in-order traversal guided by the infohash bits,
collecting up to `KNodes` nodes.  `ok` stands for `n.IsOK ID`, whose
verdict depends on wall-clock state (`WasContactedRecently`); it is only
consulted when `filter` is true, and `Lookup` passes `filter = false`. -/
def nTree.Traverse (ok : RemoteNode → Bool) (ID : List Nat) (filter : Bool) :
    nTree → Nat → List RemoteNode → List RemoteNode
  | .nil, _, ret => ret
  | .node z o (some r), i, ret =>
    if !filter || ok r then ret ++ [r]
    else if i ≥ ID.length * 8 then ret
    else if ret.length ≥ KNodes then ret
    else if idBit ID i then
      -- left = one, right = zero
      let ret2 := nTree.Traverse ok ID filter o (i + 1) ret
      if ret2.length ≥ KNodes then ret2
      else nTree.Traverse ok ID filter z (i + 1) ret2
    else
      -- left = zero, right = one
      let ret2 := nTree.Traverse ok ID filter z (i + 1) ret
      if ret2.length ≥ KNodes then ret2
      else nTree.Traverse ok ID filter o (i + 1) ret2
  | .node z o none, i, ret =>
    if i ≥ ID.length * 8 then ret
    else if ret.length ≥ KNodes then ret
    else if idBit ID i then
      let ret2 := nTree.Traverse ok ID filter o (i + 1) ret
      if ret2.length ≥ KNodes then ret2
      else nTree.Traverse ok ID filter z (i + 1) ret2
    else
      let ret2 := nTree.Traverse ok ID filter z (i + 1) ret
      if ret2.length ≥ KNodes then ret2
      else nTree.Traverse ok ID filter o (i + 1) ret2

/-- `nTree.Lookup`: unfiltered lookup of the nodes closest to `ID`.  The
`IsOK` oracle is irrelevant because `filter = false`. -/
def nTree.Lookup (n : nTree) (ID : List Nat) : List RemoteNode :=
  if ID = [] then [] else nTree.Traverse (fun _ => true) ID false n 0 []

/-- `nTree.Cut`: delete the subtree on the bit path of `ID` once its leaves
became empty.  Returns the rewritten subtree together with the `cutMe` flag
telling the caller to null out this child. -/
def nTree.Cut : nTree → List Nat → Nat → nTree × Bool
  | .nil, _, _ => (.nil, true)
  | .node z o v, ID, i =>
    if i ≥ ID.length * 8 then (.node z o v, true)
    else if idBit ID i then
      let oc := nTree.Cut o ID (i + 1)
      if oc.2 then
        if z = nTree.nil then (.node z .nil v, true) else (.node z .nil v, false)
      else (.node z oc.1 v, false)
    else
      let zc := nTree.Cut z ID (i + 1)
      if zc.2 then
        if o = nTree.nil then (.node .nil o v, true) else (.node .nil o v, false)
      else (.node zc.1 o v, false)

/-- Number of stored values in a tree. -/
def nTree.size : nTree → Nat
  | .nil => 0
  | .node z o (some _) => 1 + z.size + o.size
  | .node z o none => z.size + o.size

/-- The stored values, zero child first (used for set reasoning only). -/
def nTree.vals : nTree → List RemoteNode
  | .nil => []
  | .node z o (some r) => r :: (z.vals ++ o.vals)
  | .node z o none => z.vals ++ o.vals

/-- The full bit-directed in-order visit of the stored values: what
`Traverse` with `filter = false` would collect with no `KNodes` cutoff. -/
def nTree.visit (ID : List Nat) : nTree → Nat → List RemoteNode
  | .nil, _ => []
  | .node _ _ (some r), _ => [r]
  | .node z o none, i =>
    if idBit ID i then nTree.visit ID o (i + 1) ++ nTree.visit ID z (i + 1)
    else nTree.visit ID z (i + 1) ++ nTree.visit ID o (i + 1)

/-- `util.HashDistance`: bytewise XOR of two equal-length ids; the empty
string on length mismatch. -/
def HashDistance (a b : List Nat) : List Nat :=
  if a.length ≠ b.length then [] else List.zipWith (fun x y => x ^^^ y) a b

/-- Byte strings ordered lexicographically (how the spec compares XOR
distances), non-strictly. -/
def distLE (x y : List Nat) : Prop := x = y ∨ List.Lex (· < ·) x y

/-- A well-formed 20-byte identifier. -/
def WFID (id : List Nat) : Prop := id.length = 20 ∧ ∀ c ∈ id, c < 256

instance (id : List Nat) : Decidable (WFID id) := by
  unfold WFID
  infer_instance

/-- The first `p.length` bits of `id` follow the path `p`. -/
def onPath (id : List Nat) (p : List Bool) : Prop :=
  ∀ j, j < p.length → idBit id j = p.getD j false

/-- Structural invariant of trees built by `Put` from well-formed ids:
stored values sit at childless nodes whose id bits extend the node's path,
and valueless nodes sit strictly above depth 160. -/
inductive Inv : nTree → List Bool → Prop
  | nil (p : List Bool) : Inv .nil p
  | leaf (r : RemoteNode) (p : List Bool) : WFID r.ID → p.length ≤ 160 →
      onPath r.ID p → Inv (nTree.leafOf r) p
  | inner (z o : nTree) (p : List Bool) : p.length < 160 →
      Inv z (p ++ [false]) → Inv o (p ++ [true]) → Inv (.node z o none) p

theorem idBit_testBit (id : List Nat) (i : Nat) :
    idBit id i = (id.getD (i / 8) 0).testBit (7 - i % 8) := by
  have hm : i % 8 < 8 := Nat.mod_lt _ (by norm_num)
  rw [Bool.eq_iff_iff]
  unfold idBit
  simp only [ne_eq, decide_eq_true_eq]
  have h7 : ((id.getD (i / 8) 0) <<< (i % 8)).testBit 7 =
      (id.getD (i / 8) 0).testBit (7 - i % 8) := by
    rw [Nat.testBit_shiftLeft]
    simp [Nat.le_of_lt_succ hm]
  rw [show (128 : Nat) = 2 ^ 7 by norm_num, Nat.and_two_pow, h7]
  cases (id.getD (i / 8) 0).testBit (7 - i % 8) <;> simp

theorem byte_eq_of_bits {c1 c2 : Nat} (h1 : c1 < 256) (h2 : c2 < 256)
    (h : ∀ m, m < 8 → c1.testBit m = c2.testBit m) : c1 = c2 := by
  apply Nat.eq_of_testBit_eq
  intro m
  by_cases hm : m < 8
  · exact h m hm
  · have hle : (256 : Nat) ≤ 2 ^ m := by
      calc (256 : Nat) = 2 ^ 8 := by norm_num
      _ ≤ 2 ^ m := Nat.pow_le_pow_right (by norm_num) (by omega)
    rw [Nat.testBit_lt_two_pow (lt_of_lt_of_le h1 hle),
      Nat.testBit_lt_two_pow (lt_of_lt_of_le h2 hle)]

theorem bits_inj {a b : List Nat} (ha : WFID a) (hb : WFID b)
    (h : ∀ j, j < 160 → idBit a j = idBit b j) : a = b := by
  have ha20 := ha.1
  have hb20 := hb.1
  apply List.ext_getElem (by omega)
  intro k hk1 hk2
  have hk : k < 20 := by omega
  apply byte_eq_of_bits (ha.2 _ (a.getElem_mem hk1)) (hb.2 _ (b.getElem_mem hk2))
  intro m hm
  have hj := h (8 * k + (7 - m)) (by omega)
  rw [idBit_testBit, idBit_testBit] at hj
  have hdiv : (8 * k + (7 - m)) / 8 = k := by omega
  have hmod : 7 - (8 * k + (7 - m)) % 8 = m := by omega
  rw [hdiv, hmod] at hj
  rwa [List.getD_eq_getElem a 0 hk1, List.getD_eq_getElem b 0 hk2] at hj

theorem getD_append_lt {p : List Bool} {q : List Bool} {j : Nat}
    (h : j < p.length) : (p ++ q).getD j false = p.getD j false := by
  rw [List.getD_eq_getElem _ _ (by simp; omega), List.getD_eq_getElem _ _ h,
    List.getElem_append_left h]

theorem onPath_weaken {id : List Nat} {p : List Bool} {b : Bool}
    (h : onPath id (p ++ [b])) : onPath id p := by
  intro j hj
  have := h j (by simp; omega)
  rwa [getD_append_lt hj] at this

theorem onPath_last {id : List Nat} {p : List Bool} {b : Bool}
    (h : onPath id (p ++ [b])) : idBit id p.length = b := by
  have := h p.length (by simp)
  rw [List.getD_eq_getElem _ _ (by simp),
    List.getElem_append_right (le_refl _)] at this
  simpa using this

theorem onPath_snoc {id : List Nat} {p : List Bool} {b : Bool}
    (h : onPath id p) (hb : idBit id p.length = b) : onPath id (p ++ [b]) := by
  intro j hj
  simp only [List.length_append, List.length_cons, List.length_nil] at hj
  rcases Nat.lt_or_ge j p.length with hlt | hge
  · rw [getD_append_lt hlt]; exact h j hlt
  · have hj2 : j = p.length := by omega
    subst hj2
    rw [List.getD_eq_getElem _ _ (by simp), List.getElem_append_right (le_refl _)]
    simpa using hb

theorem vals_inv {n : nTree} {p : List Bool} (h : Inv n p) :
    ∀ r ∈ n.vals, WFID r.ID ∧ onPath r.ID p := by
  induction h with
  | nil p => simp [nTree.vals]
  | leaf r p hwf hle hpath =>
    intro x hx
    simp [nTree.leafOf, nTree.vals] at hx
    subst hx; exact ⟨hwf, hpath⟩
  | inner z o p hp hz ho ihz iho =>
    intro x hx
    simp only [nTree.vals, List.mem_append] at hx
    rcases hx with hx | hx
    · exact ⟨(ihz x hx).1, onPath_weaken (ihz x hx).2⟩
    · exact ⟨(iho x hx).1, onPath_weaken (iho x hx).2⟩

theorem BranchOut_ok {n1 n2 : RemoteNode} (h1 : WFID n1.ID) (h2 : WFID n2.ID) :
    ∀ (k : Nat) (p : List Bool) (j : Nat), j - p.length = k → p.length ≤ j → j < 160 →
    idBit n1.ID j ≠ idBit n2.ID j →
    (∀ j2, p.length ≤ j2 → j2 < j → idBit n1.ID j2 = idBit n2.ID j2) →
    onPath n1.ID p → onPath n2.ID p →
    Inv (nTree.BranchOut n1 n2 p.length) p ∧
    (nTree.BranchOut n1 n2 p.length).size = 2 ∧
    ∀ x, x ∈ (nTree.BranchOut n1 n2 p.length).vals ↔ x = n1 ∨ x = n2 := by
  have e1 : n1.ID.length * 8 = 160 := by rw [h1.1]
  have e2 : n2.ID.length * 8 = 160 := by rw [h2.1]
  intro k
  induction k with
  | zero =>
    intro p j hk hle hlt hdiff hagree hp1 hp2
    have hj : j = p.length := by omega
    subst hj
    rw [nTree.BranchOut, dif_pos (by omega)]
    cases hx : idBit n1.ID p.length <;> cases hy : idBit n2.ID p.length <;>
      rw [hx, hy] at hdiff
    · exact absurd rfl hdiff
    · refine ⟨Inv.inner _ _ _ (by omega)
          (Inv.leaf _ _ h1 (by simp; omega) (onPath_snoc hp1 hx))
          (Inv.leaf _ _ h2 (by simp; omega) (onPath_snoc hp2 hy)), ?_, ?_⟩
      · show (nTree.node (nTree.leafOf n1) (nTree.leafOf n2) none).size = 2
        simp [nTree.size, nTree.leafOf]
      · intro x
        show x ∈ (nTree.node (nTree.leafOf n1) (nTree.leafOf n2) none).vals ↔ _
        simp [nTree.vals, nTree.leafOf]
    · refine ⟨Inv.inner _ _ _ (by omega)
          (Inv.leaf _ _ h2 (by simp; omega) (onPath_snoc hp2 hy))
          (Inv.leaf _ _ h1 (by simp; omega) (onPath_snoc hp1 hx)), ?_, ?_⟩
      · show (nTree.node (nTree.leafOf n2) (nTree.leafOf n1) none).size = 2
        simp [nTree.size, nTree.leafOf]
      · intro x
        show x ∈ (nTree.node (nTree.leafOf n2) (nTree.leafOf n1) none).vals ↔ _
        simp [nTree.vals, nTree.leafOf]
        tauto
    · exact absurd rfl hdiff
  | succ k ih =>
    intro p j hk hle hlt hdiff hagree hp1 hp2
    have hplt : p.length < j := by omega
    have heq : idBit n1.ID p.length = idBit n2.ID p.length :=
      hagree p.length (le_refl _) hplt
    rw [nTree.BranchOut, dif_pos (by omega)]
    have hlen2 : ∀ b : Bool, (p ++ [b]).length = p.length + 1 := by simp
    cases hb : idBit n1.ID p.length
    · have hb2 : idBit n2.ID p.length = false := by rw [← heq]; exact hb
      rw [hb2]
      have key := ih (p ++ [false]) j (by simp; omega) (by simp; omega) hlt hdiff
        (fun j2 hj2a hj2b => hagree j2 (by simp at hj2a; omega) hj2b)
        (onPath_snoc hp1 hb) (onPath_snoc hp2 hb2)
      rw [hlen2] at key
      refine ⟨Inv.inner _ _ _ (by omega) key.1 (Inv.nil _), ?_, ?_⟩
      · show (nTree.node (nTree.BranchOut n1 n2 (p.length + 1)) nTree.nil none).size = 2
        simp [nTree.size, key.2.1]
      · intro x
        show x ∈ (nTree.node (nTree.BranchOut n1 n2 (p.length + 1)) nTree.nil none).vals ↔ _
        simp only [nTree.vals, List.mem_append, List.not_mem_nil, or_false]
        exact key.2.2 x
    · have hb2 : idBit n2.ID p.length = true := by rw [← heq]; exact hb
      rw [hb2]
      have key := ih (p ++ [true]) j (by simp; omega) (by simp; omega) hlt hdiff
        (fun j2 hj2a hj2b => hagree j2 (by simp at hj2a; omega) hj2b)
        (onPath_snoc hp1 hb) (onPath_snoc hp2 hb2)
      rw [hlen2] at key
      refine ⟨Inv.inner _ _ _ (by omega) (Inv.nil _) key.1, ?_, ?_⟩
      · show (nTree.node nTree.nil (nTree.BranchOut n1 n2 (p.length + 1)) none).size = 2
        simp [nTree.size, key.2.1]
      · intro x
        show x ∈ (nTree.node nTree.nil (nTree.BranchOut n1 n2 (p.length + 1)) none).vals ↔ _
        simp only [nTree.vals, List.mem_append, List.not_mem_nil, false_or]
        exact key.2.2 x

theorem BranchOut_ne_nil (n1 n2 : RemoteNode) (i : Nat) :
    nTree.BranchOut n1 n2 i ≠ .nil := by
  rw [nTree.BranchOut]
  split
  · cases hb : idBit n1.ID i <;> cases hb2 : idBit n2.ID i <;> simp [hb, hb2]
  · simp

theorem Put_inner_false (z o : nTree) (nn : RemoteNode) (i : Nat)
    (hlt2 : ¬ i ≥ nn.ID.length * 8) (hb : idBit nn.ID i = false) :
    (nTree.node z o none).Put nn i =
      .node (match z with
             | .nil => nTree.leafOf nn
             | z2 => z2.Put nn (i + 1)) o none := by
  cases z <;> cases o
  · rw [nTree.Put.eq_3, if_neg hlt2, hb]
    rfl
  · rw [nTree.Put.eq_5 _ _ _ (fun h => nTree.noConfusion h), if_neg hlt2, hb]
    rfl
  · rw [nTree.Put.eq_4 _ _ _ (fun h => nTree.noConfusion h), if_neg hlt2, hb]
    rfl
  · rw [nTree.Put.eq_6 _ _ _ _ (fun h => nTree.noConfusion h)
      (fun h => nTree.noConfusion h), if_neg hlt2, hb]
    rfl

theorem Put_inner_true (z o : nTree) (nn : RemoteNode) (i : Nat)
    (hlt2 : ¬ i ≥ nn.ID.length * 8) (hb : idBit nn.ID i = true) :
    (nTree.node z o none).Put nn i =
      .node z (match o with
               | .nil => nTree.leafOf nn
               | o2 => o2.Put nn (i + 1)) none := by
  cases z <;> cases o
  · rw [nTree.Put.eq_3, if_neg hlt2, hb]
    rfl
  · rw [nTree.Put.eq_5 _ _ _ (fun h => nTree.noConfusion h), if_neg hlt2, hb]
    rfl
  · rw [nTree.Put.eq_4 _ _ _ (fun h => nTree.noConfusion h), if_neg hlt2, hb]
    rfl
  · rw [nTree.Put.eq_6 _ _ _ _ (fun h => nTree.noConfusion h)
      (fun h => nTree.noConfusion h), if_neg hlt2, hb]
    rfl

theorem Put_inner_false_nil (o : nTree) (nn : RemoteNode) (i : Nat)
    (hlt2 : ¬ i ≥ nn.ID.length * 8) (hb : idBit nn.ID i = false) :
    (nTree.node .nil o none).Put nn i = .node (nTree.leafOf nn) o none :=
  (Put_inner_false .nil o nn i hlt2 hb).trans rfl

theorem Put_inner_false_node (z1 o1 : nTree) (v1 : Option RemoteNode)
    (o : nTree) (nn : RemoteNode) (i : Nat)
    (hlt2 : ¬ i ≥ nn.ID.length * 8) (hb : idBit nn.ID i = false) :
    (nTree.node (.node z1 o1 v1) o none).Put nn i =
      .node ((nTree.node z1 o1 v1).Put nn (i + 1)) o none :=
  (Put_inner_false (.node z1 o1 v1) o nn i hlt2 hb).trans rfl

theorem Put_inner_true_nil (z : nTree) (nn : RemoteNode) (i : Nat)
    (hlt2 : ¬ i ≥ nn.ID.length * 8) (hb : idBit nn.ID i = true) :
    (nTree.node z .nil none).Put nn i = .node z (nTree.leafOf nn) none :=
  (Put_inner_true z .nil nn i hlt2 hb).trans rfl

theorem Put_inner_true_node (z z1 o1 : nTree) (v1 : Option RemoteNode)
    (nn : RemoteNode) (i : Nat)
    (hlt2 : ¬ i ≥ nn.ID.length * 8) (hb : idBit nn.ID i = true) :
    (nTree.node z (.node z1 o1 v1) none).Put nn i =
      .node z ((nTree.node z1 o1 v1).Put nn (i + 1)) none :=
  (Put_inner_true z (.node z1 o1 v1) nn i hlt2 hb).trans rfl

theorem Put_ok {nn : RemoteNode} (hwf : WFID nn.ID) :
    ∀ {n : nTree} {p : List Bool}, Inv n p → onPath nn.ID p →
    (∀ r ∈ n.vals, r.ID ≠ nn.ID) → n ≠ .nil →
    Inv (n.Put nn p.length) p ∧ (n.Put nn p.length) ≠ .nil ∧
    (n.Put nn p.length).size = n.size + 1 ∧
    (∀ x, x ∈ (n.Put nn p.length).vals ↔ x = nn ∨ x ∈ n.vals) := by
  have e0 : nn.ID.length * 8 = 160 := by rw [hwf.1]
  intro n p hInv
  induction hInv with
  | nil p => intro _ _ hne; exact absurd rfl hne
  | leaf r p hrwf hple hrpath =>
    intro hnnp hfresh _
    have hrne : r.ID ≠ nn.ID := hfresh r (by simp [nTree.leafOf, nTree.vals])
    have hplt : p.length < 160 := by
      rcases Nat.lt_or_ge p.length 160 with h | h
      · exact h
      · exfalso
        apply hrne
        apply bits_inj hrwf hwf
        intro j hj
        rw [hrpath j (by omega), hnnp j (by omega)]
    have hput : (nTree.leafOf r).Put nn p.length = nTree.BranchOut nn r p.length := by
      rw [nTree.leafOf, nTree.Put]
      rw [if_neg (by omega), if_neg hrne]
    have hex : ∃ j, j < 160 ∧ idBit nn.ID j ≠ idBit r.ID j := by
      by_contra hno
      push_neg at hno
      exact hrne (bits_inj hwf hrwf fun j hj => hno j hj).symm
    have hj0 := Nat.find_spec hex
    have hge : p.length ≤ Nat.find hex := by
      by_contra hcon
      push_neg at hcon
      exact hj0.2 (by rw [hnnp _ hcon, hrpath _ hcon])
    have hagree : ∀ j2, p.length ≤ j2 → j2 < Nat.find hex →
        idBit nn.ID j2 = idBit r.ID j2 := by
      intro j2 _ hj2
      have := Nat.find_min hex hj2
      push_neg at this
      exact this (lt_trans hj2 hj0.1)
    have key := BranchOut_ok hwf hrwf (Nat.find hex - p.length) p (Nat.find hex)
      rfl hge hj0.1 hj0.2 hagree hnnp hrpath
    rw [hput]
    refine ⟨key.1, BranchOut_ne_nil _ _ _, ?_, ?_⟩
    · rw [key.2.1]
      simp [nTree.leafOf, nTree.size]
    · intro x
      rw [key.2.2 x]
      simp [nTree.leafOf, nTree.vals]
  | inner z o p hp hz ho ihz iho =>
    intro hnnp hfresh _
    have hlt : ¬ (p.length ≥ nn.ID.length * 8) := by omega
    have hlen2 : ∀ b : Bool, (p ++ [b]).length = p.length + 1 := by simp
    cases hb : idBit nn.ID p.length
    · cases z with
      | nil =>
        rw [Put_inner_false_nil o nn p.length hlt hb]
        refine ⟨Inv.inner _ _ _ hp
            (Inv.leaf _ _ hwf (by simp; omega) (onPath_snoc hnnp hb)) ho,
          by simp, ?_, ?_⟩
        · simp [nTree.size, nTree.leafOf]
          omega
        · intro x
          simp [nTree.vals, nTree.leafOf]
      | node z1 o1 v1 =>
        rw [Put_inner_false_node z1 o1 v1 o nn p.length hlt hb]
        have hzfresh : ∀ r ∈ (nTree.node z1 o1 v1).vals, r.ID ≠ nn.ID := by
          intro r hr
          exact hfresh r (by simp only [nTree.vals, List.mem_append]; exact Or.inl hr)
        have key := ihz (onPath_snoc hnnp hb) hzfresh (by simp)
        rw [hlen2] at key
        refine ⟨Inv.inner _ _ _ hp key.1 ho, by simp, ?_, ?_⟩
        · simp only [nTree.size, key.2.2.1]
          omega
        · intro x
          simp only [nTree.vals, List.mem_append, key.2.2.2 x]
          exact or_assoc
    · cases o with
      | nil =>
        rw [Put_inner_true_nil z nn p.length hlt hb]
        refine ⟨Inv.inner _ _ _ hp hz
            (Inv.leaf _ _ hwf (by simp; omega) (onPath_snoc hnnp hb)),
          by simp, ?_, ?_⟩
        · simp [nTree.size, nTree.leafOf]
        · intro x
          simp [nTree.vals, nTree.leafOf]
          tauto
      | node z1 o1 v1 =>
        rw [Put_inner_true_node z z1 o1 v1 nn p.length hlt hb]
        have hofresh : ∀ r ∈ (nTree.node z1 o1 v1).vals, r.ID ≠ nn.ID := by
          intro r hr
          exact hfresh r (by simp only [nTree.vals, List.mem_append]; exact Or.inr hr)
        have key := iho (onPath_snoc hnnp hb) hofresh (by simp)
        rw [hlen2] at key
        refine ⟨Inv.inner _ _ _ hp hz key.1, by simp, ?_, ?_⟩
        · simp only [nTree.size, key.2.2.1]
          omega
        · intro x
          simp only [nTree.vals, List.mem_append, key.2.2.2 x]
          exact or_left_comm

/-- The routing table's empty prefix tree, `&nTree{}`. -/
def emptyTree : nTree := .node .nil .nil none

/-- Folding `Insert` over a list of fresh well-formed nodes preserves the
structural invariant and adds one stored value per node. -/
theorem Insert_foldl_ok :
    ∀ (rs : List RemoteNode) (t : nTree), Inv t [] → t ≠ .nil →
    (∀ r ∈ rs, WFID r.ID) → (rs.map (·.ID)).Nodup →
    (∀ r ∈ rs, ∀ s ∈ t.vals, s.ID ≠ r.ID) →
    Inv (rs.foldl (fun a r => a.Insert r) t) [] ∧
    (rs.foldl (fun a r => a.Insert r) t) ≠ .nil ∧
    (rs.foldl (fun a r => a.Insert r) t).size = t.size + rs.length := by
  intro rs
  induction rs with
  | nil => intro t h1 h2 _ _ _; exact ⟨h1, h2, by simp⟩
  | cons r rs ih =>
    intro t h1 h2 hwf hnd hfresh
    have hr : WFID r.ID := hwf r (by simp)
    have key := Put_ok hr h1 (by intro j hj; simp at hj)
      (fun s hs => hfresh r (by simp) s hs) h2
    have hstep : t.Insert r = t.Put r 0 := rfl
    have hnd2 : (rs.map (·.ID)).Nodup := by
      simp only [List.map_cons, List.nodup_cons] at hnd
      exact hnd.2
    have hfresh2 : ∀ r2 ∈ rs, ∀ s ∈ (t.Insert r).vals, s.ID ≠ r2.ID := by
      intro r2 hr2 s hs
      rw [hstep] at hs
      rw [show (0 : Nat) = ([] : List Bool).length from rfl] at hs
      rcases (key.2.2.2 s).mp hs with hse | hsv
      · subst hse
        simp only [List.map_cons, List.nodup_cons] at hnd
        intro hcon
        exact hnd.1 (by rw [hcon]; exact List.mem_map_of_mem _ hr2)
      · exact hfresh r2 (by simp [hr2]) s hsv
    have main := ih (t.Insert r)
      (by rw [hstep, show (0 : Nat) = ([] : List Bool).length from rfl]; exact key.1)
      (by rw [hstep, show (0 : Nat) = ([] : List Bool).length from rfl]; exact key.2.1)
      (fun x hx => hwf x (by simp [hx])) hnd2 hfresh2
    refine ⟨main.1, main.2.1, ?_⟩
    rw [List.foldl_cons, main.2.2, hstep,
      show (0 : Nat) = ([] : List Bool).length from rfl, key.2.2.1]
    simp only [List.length_cons]
    omega

/-- The length of a full visit equals the number of stored values. -/
theorem visit_length (ID : List Nat) :
    ∀ {n : nTree} {p : List Bool}, Inv n p → ∀ i,
    (nTree.visit ID n i).length = n.size := by
  intro n p h
  induction h with
  | nil p => intro i; simp [nTree.visit, nTree.size]
  | leaf r p hwf hle hpath =>
    intro i
    simp [nTree.visit, nTree.leafOf, nTree.size]
  | inner z o p hp hz ho ihz iho =>
    intro i
    rw [nTree.visit]
    cases hb : idBit ID i <;>
      simp [hb, nTree.size, ihz (i + 1), iho (i + 1)] <;> omega

/-- Every visited value is stored in the tree. -/
theorem visit_mem (ID : List Nat) :
    ∀ (n : nTree) (i : Nat) (x : RemoteNode),
    x ∈ nTree.visit ID n i → x ∈ n.vals := by
  intro n
  induction n with
  | nil => intro i x hx; simp [nTree.visit] at hx
  | node z o v ihz iho =>
    intro i x hx
    cases v with
    | some r =>
      simp only [nTree.visit] at hx
      simp only [nTree.vals]
      simp at hx
      simp [hx]
    | none =>
      rw [nTree.visit] at hx
      simp only [nTree.vals, List.mem_append]
      cases hb : idBit ID i
      · rw [hb] at hx
        simp at hx
        rcases hx with hx | hx
        · exact Or.inl (ihz (i + 1) x hx)
        · exact Or.inr (iho (i + 1) x hx)
      · rw [hb] at hx
        simp at hx
        rcases hx with hx | hx
        · exact Or.inr (iho (i + 1) x hx)
        · exact Or.inl (ihz (i + 1) x hx)

theorem lex_of_eq_lt : ∀ (k : Nat) (x y : List Nat), k < x.length → k < y.length →
    (∀ t, t < k → x.getD t 0 = y.getD t 0) → x.getD k 0 < y.getD k 0 →
    List.Lex (· < ·) x y := by
  intro k
  induction k with
  | zero =>
    intro x y hx hy _ hlt
    cases x with
    | nil => simp at hx
    | cons a xs =>
      cases y with
      | nil => simp at hy
      | cons b ys =>
        apply List.Lex.rel
        simpa using hlt
  | succ k ih =>
    intro x y hx hy hagree hlt
    cases x with
    | nil => simp at hx
    | cons a xs =>
      cases y with
      | nil => simp at hy
      | cons b ys =>
        have hab : a = b := by simpa using hagree 0 (by omega)
        subst hab
        apply List.Lex.cons
        apply ih xs ys (by simp at hx; omega) (by simp at hy; omega)
        · intro t ht
          simpa using hagree (t + 1) (by omega)
        · simpa using hlt

/-- If two well-formed ids agree with each other on all bits below `i`,
and at bit `i` the first matches the infohash while the second does not,
then the first is strictly closer in XOR distance (lexicographic on the
XOR byte strings). -/
theorem dist_lex {u w ihh : List Nat} (hu : WFID u) (hw : WFID w) (hih : WFID ihh)
    {i : Nat} (hi : i < 160)
    (hagree : ∀ j, j < i → idBit u j = idBit w j)
    (hui : idBit u i = idBit ihh i) (hwi : idBit w i ≠ idBit ihh i) :
    List.Lex (· < ·) (HashDistance u ihh) (HashDistance w ihh) := by
  have hul := hu.1
  have hwl := hw.1
  have hihl := hih.1
  have hdu : HashDistance u ihh = List.zipWith (fun x y => x ^^^ y) u ihh := by
    unfold HashDistance
    rw [if_neg (by omega)]
  have hdw : HashDistance w ihh = List.zipWith (fun x y => x ^^^ y) w ihh := by
    unfold HashDistance
    rw [if_neg (by omega)]
  have hbound : ∀ (l : List Nat), WFID l → ∀ t, t < 20 → l.getD t 0 < 256 := by
    intro l hl t ht
    have hl20 := hl.1
    rw [List.getD_eq_getElem l 0 (by omega)]
    exact hl.2 _ (List.getElem_mem _)
  have hzip : ∀ (a b : List Nat), a.length = 20 → b.length = 20 → ∀ t, t < 20 →
      (List.zipWith (fun x y => x ^^^ y) a b).getD t 0 = a.getD t 0 ^^^ b.getD t 0 := by
    intro a b hal hbl t ht
    rw [List.getD_eq_getElem _ 0 (by simp [hal, hbl]; omega),
      List.getElem_zipWith, List.getD_eq_getElem a 0 (by omega),
      List.getD_eq_getElem b 0 (by omega)]
  -- bytes of u and w agree strictly below byte i/8
  have hbyte_eq : ∀ t, t < i / 8 → u.getD t 0 = w.getD t 0 := by
    intro t ht
    apply byte_eq_of_bits (hbound u hu t (by omega)) (hbound w hw t (by omega))
    intro m2 hm2
    have hj := hagree (8 * t + (7 - m2)) (by omega)
    rw [idBit_testBit, idBit_testBit,
      show (8 * t + (7 - m2)) / 8 = t by omega,
      show 7 - (8 * t + (7 - m2)) % 8 = m2 by omega] at hj
    exact hj
  rw [hdu, hdw]
  apply lex_of_eq_lt (i / 8) _ _ (by simp; omega) (by simp; omega)
  · intro t ht
    rw [hzip u ihh hul hihl t (by omega), hzip w ihh hwl hihl t (by omega),
      hbyte_eq t ht]
  · rw [hzip u ihh hul hihl (i / 8) (by omega), hzip w ihh hwl hihl (i / 8) (by omega)]
    apply Nat.lt_of_testBit (7 - i % 8)
    · rw [Nat.testBit_xor]
      have h1 : idBit u i = (u.getD (i / 8) 0).testBit (7 - i % 8) := idBit_testBit u i
      have h2 : idBit ihh i = (ihh.getD (i / 8) 0).testBit (7 - i % 8) := idBit_testBit ihh i
      rw [← h1, ← h2, hui]
      cases idBit ihh i <;> simp
    · rw [Nat.testBit_xor]
      have h1 : idBit w i = (w.getD (i / 8) 0).testBit (7 - i % 8) := idBit_testBit w i
      have h2 : idBit ihh i = (ihh.getD (i / 8) 0).testBit (7 - i % 8) := idBit_testBit ihh i
      rw [← h1, ← h2]
      cases hb1 : idBit w i <;> cases hb2 : idBit ihh i <;> simp_all
    · intro q hq
      rcases Nat.lt_or_ge q 8 with hq8 | hq8
      · -- q = 7 - m2 with m2 < i % 8; the corresponding bit index is below i
        have hj := hagree (8 * (i / 8) + (7 - q)) (by omega)
        rw [idBit_testBit, idBit_testBit,
          show (8 * (i / 8) + (7 - q)) / 8 = i / 8 by omega,
          show 7 - (8 * (i / 8) + (7 - q)) % 8 = q by omega] at hj
        rw [Nat.testBit_xor, Nat.testBit_xor, hj]
      · have hpow : (2 : Nat) ^ 8 ≤ 2 ^ q := Nat.pow_le_pow_right (by norm_num) hq8
        have hx8 : u.getD (i / 8) 0 ^^^ ihh.getD (i / 8) 0 < 2 ^ 8 :=
          Nat.xor_lt_two_pow (by simpa using hbound u hu (i / 8) (by omega))
            (by simpa using hbound ihh hih (i / 8) (by omega))
        have hy8 : w.getD (i / 8) 0 ^^^ ihh.getD (i / 8) 0 < 2 ^ 8 :=
          Nat.xor_lt_two_pow (by simpa using hbound w hw (i / 8) (by omega))
            (by simpa using hbound ihh hih (i / 8) (by omega))
        rw [Nat.testBit_lt_two_pow (lt_of_lt_of_le hx8 hpow),
          Nat.testBit_lt_two_pow (lt_of_lt_of_le hy8 hpow)]

/-- The bit-directed in-order visit of an invariant tree lists values in
strictly increasing XOR distance to the infohash. -/
theorem visit_sorted {ihh : List Nat} (hih : WFID ihh) :
    ∀ {n : nTree} {p : List Bool}, Inv n p →
    List.Pairwise
      (fun u v => List.Lex (· < ·) (HashDistance u.ID ihh) (HashDistance v.ID ihh))
      (nTree.visit ihh n p.length) := by
  intro n p h
  induction h with
  | nil p => simp [nTree.visit]
  | leaf r p _ _ _ => simp [nTree.visit, nTree.leafOf]
  | inner z o p hp hz ho ihz iho =>
    have hlen2 : ∀ b : Bool, (p ++ [b]).length = p.length + 1 := by simp
    rw [hlen2] at ihz iho
    have hzbit : ∀ u ∈ nTree.visit ihh z (p.length + 1),
        WFID u.ID ∧ onPath u.ID p ∧ idBit u.ID p.length = false := by
      intro u hu
      have hv := vals_inv hz u (visit_mem ihh z (p.length + 1) u hu)
      exact ⟨hv.1, onPath_weaken hv.2, onPath_last hv.2⟩
    have hobit : ∀ u ∈ nTree.visit ihh o (p.length + 1),
        WFID u.ID ∧ onPath u.ID p ∧ idBit u.ID p.length = true := by
      intro u hu
      have hv := vals_inv ho u (visit_mem ihh o (p.length + 1) u hu)
      exact ⟨hv.1, onPath_weaken hv.2, onPath_last hv.2⟩
    rw [nTree.visit]
    cases hb : idBit ihh p.length
    · rw [if_neg (by simp), List.pairwise_append]
      refine ⟨ihz, iho, ?_⟩
      intro u hu v hv
      obtain ⟨hwu, hpu, hbu⟩ := hzbit u hu
      obtain ⟨hwv, hpv, hbv⟩ := hobit v hv
      apply dist_lex hwu hwv hih hp
      · intro j hj
        rw [hpu j hj, hpv j hj]
      · rw [hbu, hb]
      · rw [hbv, hb]
        simp
    · rw [if_pos rfl, List.pairwise_append]
      refine ⟨iho, ihz, ?_⟩
      intro u hu v hv
      obtain ⟨hwu, hpu, hbu⟩ := hobit u hu
      obtain ⟨hwv, hpv, hbv⟩ := hzbit v hv
      apply dist_lex hwu hwv hih hp
      · intro j hj
        rw [hpu j hj, hpv j hj]
      · rw [hbu, hb]
      · rw [hbv, hb]
        simp

/-- With `filter = false`, `Traverse` appends the first `KNodes - ret.length`
values of the full bit-directed visit. -/
theorem Traverse_take (ok : RemoteNode → Bool) {ID : List Nat}
    (hlen : ID.length = 20) :
    ∀ {n : nTree} {p : List Bool}, Inv n p →
    ∀ ret : List RemoteNode, ret.length < KNodes →
    nTree.Traverse ok ID false n p.length ret =
      ret ++ (nTree.visit ID n p.length).take (KNodes - ret.length) := by
  intro n p h
  induction h with
  | nil p => intro ret hret; simp [nTree.Traverse, nTree.visit]
  | leaf r p _ _ _ =>
    intro ret hret
    rw [nTree.leafOf, nTree.Traverse]
    simp only [Bool.not_false, Bool.true_or, if_true, nTree.visit]
    rw [show KNodes - ret.length = (KNodes - ret.length - 1) + 1 by
        simp only [KNodes] at *; omega]
    simp
  | inner z o p hp hz ho ihz iho =>
    intro ret hret
    have hlen2 : ∀ b : Bool, (p ++ [b]).length = p.length + 1 := by simp
    rw [hlen2] at ihz iho
    have hID : ID.length * 8 = 160 := by rw [hlen]
    rw [nTree.Traverse, if_neg (by omega), if_neg (by omega), nTree.visit]
    cases hb : idBit ID p.length
    · rw [if_neg Bool.false_ne_true, if_neg Bool.false_ne_true]
      show (if (nTree.Traverse ok ID false z (p.length + 1) ret).length ≥ KNodes
            then nTree.Traverse ok ID false z (p.length + 1) ret
            else nTree.Traverse ok ID false o (p.length + 1)
              (nTree.Traverse ok ID false z (p.length + 1) ret)) =
        ret ++ (nTree.visit ID z (p.length + 1) ++
          nTree.visit ID o (p.length + 1)).take (KNodes - ret.length)
      have h1 := ihz ret hret
      by_cases hcase : KNodes - ret.length ≤ (nTree.visit ID z (p.length + 1)).length
      · rw [h1, if_pos (by simp only [List.length_append, List.length_take]; omega),
          List.take_append_of_le_length hcase]
      · have hall : (nTree.visit ID z (p.length + 1)).take (KNodes - ret.length) =
            nTree.visit ID z (p.length + 1) := List.take_of_length_le (by omega)
        rw [h1, hall, if_neg (by simp only [List.length_append]; omega)]
        have h2 := iho (ret ++ nTree.visit ID z (p.length + 1))
          (by simp only [List.length_append]; omega)
        rw [h2, List.take_append_eq_append_take, hall,
          show KNodes - (ret ++ nTree.visit ID z (p.length + 1)).length =
            KNodes - ret.length - (nTree.visit ID z (p.length + 1)).length by
              simp only [List.length_append]; omega]
        simp only [List.append_assoc]
    · rw [if_pos rfl, if_pos rfl]
      show (if (nTree.Traverse ok ID false o (p.length + 1) ret).length ≥ KNodes
            then nTree.Traverse ok ID false o (p.length + 1) ret
            else nTree.Traverse ok ID false z (p.length + 1)
              (nTree.Traverse ok ID false o (p.length + 1) ret)) =
        ret ++ (nTree.visit ID o (p.length + 1) ++
          nTree.visit ID z (p.length + 1)).take (KNodes - ret.length)
      have h1 := iho ret hret
      by_cases hcase : KNodes - ret.length ≤ (nTree.visit ID o (p.length + 1)).length
      · rw [h1, if_pos (by simp only [List.length_append, List.length_take]; omega),
          List.take_append_of_le_length hcase]
      · have hall : (nTree.visit ID o (p.length + 1)).take (KNodes - ret.length) =
            nTree.visit ID o (p.length + 1) := List.take_of_length_le (by omega)
        rw [h1, hall, if_neg (by simp only [List.length_append]; omega)]
        have h2 := ihz (ret ++ nTree.visit ID o (p.length + 1))
          (by simp only [List.length_append]; omega)
        rw [h2, List.take_append_eq_append_take, hall,
          show KNodes - (ret ++ nTree.visit ID o (p.length + 1)).length =
            KNodes - ret.length - (nTree.visit ID o (p.length + 1)).length by
              simp only [List.length_append]; omega]
        simp only [List.append_assoc]

/-- C1: for every prefix tree obtained by inserting at least 8 RemoteNodes
with distinct 20-byte ids, and every 20-byte infohash `ihh`, `Lookup ihh`
returns exactly 8 nodes, and the returned sequence is non-decreasing when
ordered by XOR distance of each node's id to `ihh` (the in-order traversal
takes the matching-bit child first, then the other). -/
theorem claim_C1 (rs : List RemoteNode) (ihh : List Nat)
    (hwf : ∀ r ∈ rs, WFID r.ID) (hnd : (rs.map (·.ID)).Nodup)
    (hcount : 8 ≤ rs.length) (hih : WFID ihh) :
    ((rs.foldl (fun a r => a.Insert r) emptyTree).Lookup ihh).length = 8 ∧
    List.Pairwise
      (fun u v => distLE (HashDistance u.ID ihh) (HashDistance v.ID ihh))
      ((rs.foldl (fun a r => a.Insert r) emptyTree).Lookup ihh) := by
  have hroot : Inv emptyTree [] :=
    Inv.inner _ _ _ (by simp) (Inv.nil _) (Inv.nil _)
  have hfold := Insert_foldl_ok rs emptyTree hroot (by simp [emptyTree]) hwf hnd
    (by intro r hr s hs; simp [emptyTree, nTree.vals] at hs)
  have hihne : ihh ≠ [] := by
    intro hcon
    have h20 := hih.1
    rw [hcon] at h20
    simp at h20
  have hlk : (rs.foldl (fun a r => a.Insert r) emptyTree).Lookup ihh =
      nTree.Traverse (fun _ => true) ihh false
        (rs.foldl (fun a r => a.Insert r) emptyTree) 0 [] := by
    rw [nTree.Lookup, if_neg hihne]
  have htake := Traverse_take (fun _ => true) hih.1 hfold.1 [] (by simp [KNodes])
  rw [show ([] : List Bool).length = 0 from rfl] at htake
  have hvlen := visit_length ihh hfold.1 0
  have hsize : (rs.foldl (fun a r => a.Insert r) emptyTree).size = rs.length := by
    rw [hfold.2.2]
    simp [emptyTree, nTree.size]
  constructor
  · rw [hlk, htake]
    simp only [List.nil_append, List.length_take, List.length_nil, hvlen, hsize,
      KNodes]
    omega
  · rw [hlk, htake]
    simp only [List.nil_append]
    have hsorted := visit_sorted hih hfold.1
    rw [show (([] : List Bool)).length = 0 from rfl] at hsorted
    exact ((hsorted.sublist (List.take_sublist _ _)).imp fun hx => Or.inr hx)

/-- Concrete instance for C1: eight nodes with distinct first bytes,
looked up from the all-zero infohash. -/
def c1nodes : List RemoteNode :=
  (List.range 8).map (fun k => { ID := k :: List.replicate 19 0 })

def c1ih : List Nat := List.replicate 20 0

theorem claim_C1_witness :
    ((c1nodes.foldl (fun a r => a.Insert r) emptyTree).Lookup c1ih).length = 8 ∧
    List.Pairwise
      (fun u v => distLE (HashDistance u.ID c1ih) (HashDistance v.ID c1ih))
      ((c1nodes.foldl (fun a r => a.Insert r) emptyTree).Lookup c1ih) :=
  claim_C1 c1nodes c1ih (by decide) (by decide) (by decide) (by decide)

/-! ## C9: `Cut` deletes the leaf on the bit path without comparing ids -/

def c9a : RemoteNode := { ID := List.replicate 20 0 }

def c9b : RemoteNode := { ID := 128 :: List.replicate 19 0 }

def c9c : List Nat := 64 :: List.replicate 19 0

def c9tree : nTree := (emptyTree.Insert c9a).Insert c9b

/-- C9: `Cut(ID, 0)` deletes the leaf lying on the bit path of `ID` without
ever comparing the stored node id to `ID`: here `c9c` is a 20-byte id not
stored in the tree, yet `Cut c9c 0` removes the path-compressed leaf that
holds the different id `c9a.ID` (the leaf reached by following `c9c`'s
bits is cut once its subtrees are empty). -/
theorem claim_C9 :
    c9c.length = 20 ∧
    c9c ∉ c9tree.vals.map (·.ID) ∧
    c9a ∈ c9tree.vals ∧
    c9a.ID ≠ c9c ∧
    c9a ∉ ((c9tree.Cut c9c 0).1).vals := by decide

/-! ## C2: the announce token scheme -/

/-- One lowercase hex digit, as Go fmt `%x` renders a nibble. -/
def hexDigit (d : Nat) : Nat := if d < 10 then 48 + d else 87 + d

/-- Lowercase hex encoding of a byte string (`fmt.Sprintf("%x", ...)`). -/
def hexOfBytes (bs : List Nat) : List Nat :=
  bs.flatMap (fun c => [hexDigit (c / 16), hexDigit (c % 16)])

/-- `DHT.hostToken`: `hex(SHA1(addr || secret))`.  SHA-1 itself is external
(`crypto/sha1`), so it is taken as a parameter; the claim's "absent a SHA-1
collision" proviso becomes an injectivity hypothesis. -/
def hostToken (sha1 : List Nat → List Nat) (addr secret : List Nat) : List Nat :=
  hexOfBytes (sha1 (addr ++ secret))

/-- `DHT.checkToken`: scan `tokenSecrets`, setting the match flag and
breaking on the first secret whose hostToken equals the presented token. -/
def checkToken (sha1 : List Nat → List Nat) (tokenSecrets : List (List Nat))
    (addr token : List Nat) : Bool :=
  tokenSecrets.any (fun secret => hostToken sha1 addr secret == token)

/-- The `secretRotateTicker` case of the loop:
`d.tokenSecrets = []string{d.newTokenSecret(), d.tokenSecrets[0]}`.
The pair always has two elements, so `[0]` is the head. -/
def rotateSecrets (fresh : List Nat) (tokenSecrets : List (List Nat)) :
    List (List Nat) :=
  [fresh, tokenSecrets.headD []]

theorem hexDigit_inj : Function.Injective hexDigit := by
  intro a b h
  unfold hexDigit at h
  split at h <;> split at h <;> omega

theorem hexOfBytes_inj : Function.Injective hexOfBytes := by
  intro a
  induction a with
  | nil =>
    intro b h
    cases b with
    | nil => rfl
    | cons d ds => simp [hexOfBytes] at h
  | cons c cs ih =>
    intro b h
    cases b with
    | nil => simp [hexOfBytes] at h
    | cons d ds =>
      simp only [hexOfBytes, List.flatMap_cons, List.cons_append, List.nil_append,
        List.cons.injEq] at h
      obtain ⟨h1, h2, h3⟩ := h
      have e1 := hexDigit_inj h1
      have e2 := hexDigit_inj h2
      have hcm := Nat.div_add_mod c 16
      have hdm := Nat.div_add_mod d 16
      have hcd : c = d := by omega
      have hcs : cs = ds := ih (by simpa [hexOfBytes] using h3)
      rw [hcd, hcs]

/-- C2: `hostToken(addr, secret)` is the lowercase hex of
`SHA1(addr || secret)`; `checkToken(addr, hostToken(addr, currentSecret))`
holds; the token still validates after exactly one rotation, fails after
two rotations, and a token computed for `addr` fails for a distinct
`addr2` — all absent a SHA-1 collision (injectivity hypothesis; secrets
are the 5-byte strings `newTokenSecret` produces). -/
theorem claim_C2 (sha1 : List Nat → List Nat) (hinj : Function.Injective sha1)
    (addr addr2 s0 s1 f1 f2 : List Nat)
    (hs0 : s0.length = 5) (hs1 : s1.length = 5)
    (hf1 : f1.length = 5) (hf2 : f2.length = 5)
    (haddr : addr ≠ addr2) (hf1s : f1 ≠ s0) (hf2s : f2 ≠ s0) :
    hostToken sha1 addr s0 = hexOfBytes (sha1 (addr ++ s0)) ∧
    checkToken sha1 [s0, s1] addr (hostToken sha1 addr s0) = true ∧
    checkToken sha1 (rotateSecrets f1 [s0, s1]) addr
      (hostToken sha1 addr s0) = true ∧
    checkToken sha1 (rotateSecrets f2 (rotateSecrets f1 [s0, s1])) addr
      (hostToken sha1 addr s0) = false ∧
    checkToken sha1 [s0, s1] addr2 (hostToken sha1 addr s0) = false := by
  have htok : ∀ x y u v : List Nat,
      hostToken sha1 x u = hostToken sha1 y v → x ++ u = y ++ v := by
    intro x y u v h
    exact hinj (hexOfBytes_inj h)
  refine ⟨rfl, ?_, ?_, ?_, ?_⟩
  · simp [checkToken]
  · simp [checkToken, rotateSecrets]
  · simp only [checkToken, rotateSecrets, List.headD, List.any_cons, List.any_nil,
      Bool.or_false, Bool.or_eq_false_iff, beq_eq_false_iff_ne, ne_eq]
    constructor
    · intro hcon
      exact hf2s (List.append_cancel_left (htok _ _ _ _ hcon))
    · intro hcon
      exact hf1s (List.append_cancel_left (htok _ _ _ _ hcon))
  · simp only [checkToken, List.any_cons, List.any_nil,
      Bool.or_false, Bool.or_eq_false_iff, beq_eq_false_iff_ne, ne_eq]
    constructor
    · intro hcon
      exact haddr ((List.append_inj' (htok _ _ _ _ hcon) (by omega)).1).symm
    · intro hcon
      exact haddr ((List.append_inj' (htok _ _ _ _ hcon) (by omega)).1).symm

theorem claim_C2_witness :
    hostToken (fun x => x) [1] [3, 3, 3, 3, 3] =
      hexOfBytes ((fun x : List Nat => x) ([1] ++ [3, 3, 3, 3, 3])) ∧
    checkToken (fun x => x) [[3, 3, 3, 3, 3], [4, 4, 4, 4, 4]] [1]
      (hostToken (fun x => x) [1] [3, 3, 3, 3, 3]) = true ∧
    checkToken (fun x => x)
      (rotateSecrets [5, 5, 5, 5, 5] [[3, 3, 3, 3, 3], [4, 4, 4, 4, 4]]) [1]
      (hostToken (fun x => x) [1] [3, 3, 3, 3, 3]) = true ∧
    checkToken (fun x => x)
      (rotateSecrets [6, 6, 6, 6, 6]
        (rotateSecrets [5, 5, 5, 5, 5] [[3, 3, 3, 3, 3], [4, 4, 4, 4, 4]])) [1]
      (hostToken (fun x => x) [1] [3, 3, 3, 3, 3]) = false ∧
    checkToken (fun x => x) [[3, 3, 3, 3, 3], [4, 4, 4, 4, 4]] [2]
      (hostToken (fun x => x) [1] [3, 3, 3, 3, 3]) = false :=
  claim_C2 (fun x => x) (fun _ _ h => h) [1] [2]
    [3, 3, 3, 3, 3] [4, 4, 4, 4, 4] [5, 5, 5, 5, 5] [6, 6, 6, 6, 6]
    rfl rfl rfl rfl (by decide) (by decide) (by decide)

/-! ## PeerStore (package `peer`)

Go maps become association lists (`mapGet`/`mapPut`/`mapDel`); the
`container/ring` cyclic list becomes a `List` whose head is the stored
cursor.  `ring.Move(1)` returns the element after the cursor *without
advancing the stored cursor*, which the modelling below reproduces. -/

def mapGet {κ α : Type} [DecidableEq κ] (s : List (κ × α)) (k : κ) : Option α :=
  match s with
  | [] => none
  | (a, b) :: rest => if k = a then some b else mapGet rest k

/-- `p.set[k]` in single-value form: `false` when the key is absent. -/
def setValD (s : List (List Nat × Bool)) (k : List Nat) : Bool :=
  (mapGet s k).getD false

/-- `_, ok := p.set[k]` — presence. -/
def setMem {κ α : Type} [DecidableEq κ] (s : List (κ × α)) (k : κ) : Bool :=
  (mapGet s k).isSome

/-- `s[k] = v`: update in place, or append a fresh binding. -/
def mapPut {κ α : Type} [DecidableEq κ] (s : List (κ × α)) (k : κ) (v : α) :
    List (κ × α) :=
  match s with
  | [] => [(k, v)]
  | (a, b) :: rest => if k = a then (a, v) :: rest else (a, b) :: mapPut rest k v

/-- `delete(s, k)`. -/
def mapDel {κ α : Type} [DecidableEq κ] (s : List (κ × α)) (k : κ) :
    List (κ × α) :=
  match s with
  | [] => []
  | (a, b) :: rest => if k = a then rest else (a, b) :: mapDel rest k

/-- `peerContactsSet`: alive-flag map over binary contacts plus the
rotation ring. -/
structure peerContactsSet where
  set : List (List Nat × Bool)
  ring : List (List Nat)
deriving DecidableEq, Repr

/-- `container/ring` `r.Move(1).Value` (also `r.Next().Value`): the element
after the cursor — the cursor itself on a one-element ring.  Go panics on a
nil ring (`none` here); reachable callers always have a non-empty ring. -/
def ringNextVal : List (List Nat) → Option (List Nat)
  | [] => none
  | [x] => some x
  | _ :: y :: _ => some y

/-- `p.ring.Link(r)` with a fresh one-element ring: insert after the
cursor; on a nil ring the field is simply set (`p.ring = r`). -/
def ringLink (ring : List (List Nat)) (c : List Nat) : List (List Nat) :=
  match ring with
  | [] => [c]
  | x :: rest => x :: c :: rest

/-- `p.ring.Unlink(1)`: remove and return the element after the cursor.  On
a one-element ring, `container/ring` relinks the cursor to itself, so the
ring keeps its single element while the caller still receives its value. -/
def ringUnlinkNext : List (List Nat) → List (List Nat) × Option (List Nat)
  | [] => ([], none)
  | [x] => ([x], some x)
  | x :: y :: rest => (x :: rest, some y)

/-- `peerContactsSet.put`: contacts shorter than 6 bytes are not stored;
`if ok := p.set[c]; ok` rejects only a present-and-alive contact, so a
present dead contact is revived (flag set true) and a second ring element
is linked for it. -/
def peerContactsSet.put (p : peerContactsSet) (peerContact : List Nat) :
    peerContactsSet × Bool :=
  if peerContact.length < 6 then (p, false)
  else if setValD p.set peerContact then (p, false)
  else
    ({ set := mapPut p.set peerContact true, ring := ringLink p.ring peerContact },
      true)

/-- `peerContactsSet.dropDead`: the loop reads `p.ring.Move(1)` — the same
cursor-next element on every iteration, because `Move` does not advance the
stored cursor — and unlinks it iff its flag is unset (dead or stale). -/
def peerContactsSet.dropDead (p : peerContactsSet) : peerContactsSet × List Nat :=
  match ringNextVal p.ring with
  | none => (p, [])
  | some nid =>
    if setValD p.set nid then (p, [])
    else
      ({ set := mapDel p.set nid, ring := (ringUnlinkNext p.ring).1 }, nid)

/-- `peerContactsSet.drop` with a named contact: again only the cursor-next
element is ever examined; it is unlinked iff it equals the target. -/
def peerContactsSet.dropNamed (p : peerContactsSet) (peerContact : List Nat) :
    peerContactsSet × List Nat :=
  match ringNextVal p.ring with
  | none => (p, [])
  | some nid =>
    if nid = peerContact then
      ({ set := mapDel p.set nid, ring := (ringUnlinkNext p.ring).1 }, nid)
    else (p, [])

/-- `peerContactsSet.drop ""`: try the dead cursor-next contact first, else
drop the cursor-next contact (`p.drop(p.ring.Next().Value)` always finds it
at the first probe). -/
def peerContactsSet.drop (p : peerContactsSet) (peerContact : List Nat) :
    peerContactsSet × List Nat :=
  if peerContact = [] then
    let dd := p.dropDead
    if dd.2 ≠ [] then dd
    else
      match ringNextVal p.ring with
      | none => (p, [])
      | some nxt => p.dropNamed nxt
  else p.dropNamed peerContact

/-- `peerContactsSet.kill`: mark dead iff present and alive. -/
def peerContactsSet.kill (p : peerContactsSet) (peerContact : List Nat) :
    peerContactsSet :=
  if setValD p.set peerContact then
    { p with set := mapPut p.set peerContact false }
  else p

def peerContactsSet.Size (p : peerContactsSet) : Nat := p.set.length

def peerContactsSet.Alive (p : peerContactsSet) : Nat :=
  (p.set.filter (fun kv => kv.2)).length

/-- First sweep of `next()`: `len(p.set)` iterations, each reading the same
`p.ring.Move(1)` element; collect it if alive and not yet collected; break
once `count` contacts are gathered. -/
def peerContactsSet.sweepA (p : peerContactsSet) (count : Nat) :
    Nat → List (List Nat) → List (List Nat)
  | 0, xx => xx
  | fuel + 1, xx =>
    match ringNextVal p.ring with
    | none => xx
    | some nid =>
      let xx2 := if setValD p.set nid ∧ nid ∉ xx then xx ++ [nid] else xx
      if count ≤ xx2.length then xx2
      else p.sweepA count fuel xx2

/-- Second sweep of `next()`: like the first but without the aliveness
test (`continue` skips already-collected ids before the break check). -/
def peerContactsSet.sweepB (p : peerContactsSet) (count : Nat) :
    Nat → List (List Nat) → List (List Nat)
  | 0, xx => xx
  | fuel + 1, xx =>
    match ringNextVal p.ring with
    | none => xx
    | some nid =>
      if nid ∈ xx then p.sweepB count fuel xx
      else
        let xx2 := xx ++ [nid]
        if count ≤ xx2.length then xx2
        else p.sweepB count fuel xx2

/-- `peerContactsSet.next`: up to `KNodes` contacts; the result list `x` is
emitted from the dedupe map `xx` (map order in Go; collection order here —
the claims are order-insensitive). -/
def peerContactsSet.next (p : peerContactsSet) : List (List Nat) :=
  let count := min KNodes p.set.length
  let xx := p.sweepA count p.set.length []
  if xx.length < count then p.sweepB count p.set.length xx else xx

/-- Modelled from the spec: the vendored `github.com/golang/groupcache/lru`
dependency is not part of this repository; the spec describes
`InfoHashPeers` as a "bounded LRU keyed by InfoHash" of at most
`maxInfohashes` keys.  Entries are most-recent-first; `Get` moves a hit to
the front; `Add` updates-and-fronts an existing key, or pushes a fresh key
and evicts the oldest entry when over `maxEntries` (0 = unbounded). -/
structure LruCache where
  maxEntries : Nat
  entries : List (List Nat × peerContactsSet)
deriving DecidableEq, Repr

def LruCache.get (c : LruCache) (k : List Nat) : LruCache × Option peerContactsSet :=
  match mapGet c.entries k with
  | some v =>
    ({ c with entries := (k, v) :: c.entries.eraseP (fun kv => kv.1 == k) }, some v)
  | none => (c, none)

def LruCache.add (c : LruCache) (k : List Nat) (v : peerContactsSet) : LruCache :=
  match mapGet c.entries k with
  | some _ =>
    { c with entries := (k, v) :: c.entries.eraseP (fun kv => kv.1 == k) }
  | none =>
    let e2 := (k, v) :: c.entries
    if 0 < c.maxEntries ∧ c.maxEntries < e2.length then
      { c with entries := e2.dropLast }
    else
      { c with entries := e2 }

/-- In-place mutation of the set object shared with the cache (Go stores a
pointer; mutating through it rewrites the value under its key without
touching recency). -/
def LruCache.setVal (c : LruCache) (k : List Nat) (v : peerContactsSet) : LruCache :=
  { c with entries := c.entries.map (fun kv => if kv.1 = k then (k, v) else kv) }

/-- `PeerStore`. -/
structure PeerStore where
  InfoHashPeers : LruCache
  LocalActiveDownloads : List (List Nat × Nat)
  MaxInfoHashes : Nat
  MaxInfoHashPeers : Nat
deriving DecidableEq, Repr

def NewPeerStore (maxInfoHashes maxInfoHashPeers : Nat) : PeerStore :=
  { InfoHashPeers := { maxEntries := maxInfoHashes, entries := [] },
    LocalActiveDownloads := [],
    MaxInfoHashes := maxInfoHashes,
    MaxInfoHashPeers := maxInfoHashPeers }

/-- `PeerStore.Get` (the lru `Get` refreshes recency, so it is threaded). -/
def PeerStore.Get (h : PeerStore) (ih : List Nat) :
    PeerStore × Option peerContactsSet :=
  let gc := h.InfoHashPeers.get ih
  ({ h with InfoHashPeers := gc.1 }, gc.2)

/-- `PeerStore.Count` (the recency touch of the underlying `Get` does not
affect the returned number). -/
def PeerStore.Count (h : PeerStore) (ih : List Nat) : Nat :=
  match (h.Get ih).2 with
  | none => 0
  | some peers => peers.Size

def PeerStore.Alive (h : PeerStore) (ih : List Nat) : Nat :=
  match (h.Get ih).2 with
  | none => 0
  | some peers => peers.Alive

/-- `PeerStore.PeerContacts`. -/
def PeerStore.PeerContacts (h : PeerStore) (ih : List Nat) :
    PeerStore × List (List Nat) :=
  let g := h.Get ih
  (g.1,
    match g.2 with
    | none => []
    | some peers => peers.next)

/-- `PeerStore.AddContact`.  Go calls `h.InfoHashPeers.Add(ih, peers)` and
then `peers.put(...)` through the shared pointer; the value finally stored
under `ih` is therefore the post-`put` set, which is what `add` receives
here. -/
def PeerStore.AddContact (h : PeerStore) (ih : List Nat) (peerContact : List Nat) :
    PeerStore × Bool :=
  let g := h.InfoHashPeers.get ih
  match g.2 with
  | some peers =>
    if h.MaxInfoHashPeers ≤ peers.Size then
      if setMem peers.set peerContact then
        ({ h with InfoHashPeers := g.1 }, false)
      else
        let dr := peers.drop []
        if dr.2 = [] then ({ h with InfoHashPeers := g.1 }, false)
        else
          let pu := dr.1.put peerContact
          ({ h with InfoHashPeers := g.1.add ih pu.1 }, pu.2)
    else
      let pu := peers.put peerContact
      ({ h with InfoHashPeers := g.1.add ih pu.1 }, pu.2)
  | none =>
    let pu := peerContactsSet.put { set := [], ring := [] } peerContact
    ({ h with InfoHashPeers := g.1.add ih pu.1 }, pu.2)

/-- `PeerStore.KillContact`: mark the contact dead in the set of every
locally active download (each `Get` refreshes recency; the mutation goes
through the shared pointer). -/
def PeerStore.KillContact (h : PeerStore) (peerContact : List Nat) : PeerStore :=
  h.LocalActiveDownloads.foldl
    (fun acc kv =>
      let g := acc.Get kv.1
      match g.2 with
      | none => g.1
      | some peers =>
        { g.1 with
          InfoHashPeers := g.1.InfoHashPeers.setVal kv.1 (peers.kill peerContact) })
    h

def PeerStore.AddLocalDownload (h : PeerStore) (ih : List Nat) (port : Nat) :
    PeerStore :=
  { h with LocalActiveDownloads := mapPut h.LocalActiveDownloads ih port }

/-- `HasLocalDownload` returns the port, 0 when absent (Go map zero value). -/
def PeerStore.HasLocalDownload (h : PeerStore) (ih : List Nat) : Nat :=
  (mapGet h.LocalActiveDownloads ih).getD 0

def PeerStore.RemoveLocalDownload (h : PeerStore) (ih : List Nat) : PeerStore :=
  { h with LocalActiveDownloads := mapDel h.LocalActiveDownloads ih }

/-! ## C4: PeerContacts bounds -/

theorem sweepA_len (p : peerContactsSet) (count : Nat) :
    ∀ (fuel : Nat) (xx : List (List Nat)), xx.length < count →
    (p.sweepA count fuel xx).length ≤ count := by
  intro fuel
  induction fuel with
  | zero => intro xx hxx; rw [peerContactsSet.sweepA]; omega
  | succ fuel ih =>
    intro xx hxx
    rw [peerContactsSet.sweepA]
    cases hr : ringNextVal p.ring with
    | none => simpa using le_of_lt hxx
    | some nid =>
      simp only []
      by_cases hc : setValD p.set nid ∧ nid ∉ xx
      · rw [if_pos hc]
        by_cases hb : count ≤ (xx ++ [nid]).length
        · rw [if_pos hb]
          simp only [List.length_append, List.length_cons, List.length_nil]
          omega
        · rw [if_neg hb]
          exact ih _ (by simp at hb ⊢; omega)
      · rw [if_neg hc]
        by_cases hb : count ≤ xx.length
        · rw [if_pos hb]; omega
        · rw [if_neg hb]
          exact ih _ (by omega)

theorem sweepA_nodup (p : peerContactsSet) (count : Nat) :
    ∀ (fuel : Nat) (xx : List (List Nat)), xx.Nodup →
    (p.sweepA count fuel xx).Nodup := by
  intro fuel
  induction fuel with
  | zero => intro xx hxx; rw [peerContactsSet.sweepA]; exact hxx
  | succ fuel ih =>
    intro xx hxx
    rw [peerContactsSet.sweepA]
    cases hr : ringNextVal p.ring with
    | none => simpa using hxx
    | some nid =>
      simp only []
      by_cases hc : setValD p.set nid ∧ nid ∉ xx
      · rw [if_pos hc]
        have hnd2 : (xx ++ [nid]).Nodup := by
          simp [List.nodup_append, hxx, hc.2]
        by_cases hb : count ≤ (xx ++ [nid]).length
        · rw [if_pos hb]; exact hnd2
        · rw [if_neg hb]; exact ih _ hnd2
      · rw [if_neg hc]
        by_cases hb : count ≤ xx.length
        · rw [if_pos hb]; exact hxx
        · rw [if_neg hb]; exact ih _ hxx

theorem sweepB_len (p : peerContactsSet) (count : Nat) :
    ∀ (fuel : Nat) (xx : List (List Nat)), xx.length < count →
    (p.sweepB count fuel xx).length ≤ count := by
  intro fuel
  induction fuel with
  | zero => intro xx hxx; rw [peerContactsSet.sweepB]; omega
  | succ fuel ih =>
    intro xx hxx
    rw [peerContactsSet.sweepB]
    cases hr : ringNextVal p.ring with
    | none => simpa using le_of_lt hxx
    | some nid =>
      simp only []
      by_cases hm : nid ∈ xx
      · rw [if_pos hm]
        exact ih _ hxx
      · rw [if_neg hm]
        by_cases hb : count ≤ (xx ++ [nid]).length
        · rw [if_pos hb]
          simp only [List.length_append, List.length_cons, List.length_nil]
          omega
        · rw [if_neg hb]
          exact ih _ (by simp at hb ⊢; omega)

theorem sweepB_nodup (p : peerContactsSet) (count : Nat) :
    ∀ (fuel : Nat) (xx : List (List Nat)), xx.Nodup →
    (p.sweepB count fuel xx).Nodup := by
  intro fuel
  induction fuel with
  | zero => intro xx hxx; rw [peerContactsSet.sweepB]; exact hxx
  | succ fuel ih =>
    intro xx hxx
    rw [peerContactsSet.sweepB]
    cases hr : ringNextVal p.ring with
    | none => simpa using hxx
    | some nid =>
      simp only []
      by_cases hm : nid ∈ xx
      · rw [if_pos hm]
        exact ih _ hxx
      · rw [if_neg hm]
        have hnd2 : (xx ++ [nid]).Nodup := by
          simp [List.nodup_append, hxx, hm]
        by_cases hb : count ≤ (xx ++ [nid]).length
        · rw [if_pos hb]; exact hnd2
        · rw [if_neg hb]; exact ih _ hnd2

theorem next_bounds (p : peerContactsSet) :
    p.next.length ≤ KNodes ∧ p.next.Nodup := by
  rw [peerContactsSet.next]
  by_cases hz : p.set.length = 0
  · cases hs : p.set with
    | cons a rest => rw [hs] at hz; simp at hz
    | nil =>
      simp [peerContactsSet.sweepA, peerContactsSet.sweepB]
  · have hcpos : 0 < min KNodes p.set.length := by
      have hpos : 0 < p.set.length := Nat.pos_of_ne_zero hz
      simp only [KNodes]
      omega
    have hA_len := sweepA_len p (min KNodes p.set.length) p.set.length []
      (by simp only [List.length_nil]; exact hcpos)
    have hA_nd := sweepA_nodup p (min KNodes p.set.length) p.set.length [] (by simp)
    by_cases hb :
        (p.sweepA (min KNodes p.set.length) p.set.length []).length <
          min KNodes p.set.length
    · rw [if_pos hb]
      have hB_len := sweepB_len p (min KNodes p.set.length) p.set.length _ hb
      have hB_nd := sweepB_nodup p (min KNodes p.set.length) p.set.length _ hA_nd
      exact ⟨le_trans hB_len (min_le_left _ _), hB_nd⟩
    · rw [if_neg hb]
      exact ⟨le_trans hA_len (min_le_left _ _), hA_nd⟩

/-- C4 (amended): `PeerContacts(ih)` returns at most 8 contacts, with no
duplicates within a single call.  The aliveness part of the original claim
fails: the second sweep does not re-check the alive flag, so dead contacts
can be returned (see the counterexample). -/
theorem claim_C4 (h : PeerStore) (ih : List Nat) :
    (h.PeerContacts ih).2.length ≤ 8 ∧ (h.PeerContacts ih).2.Nodup := by
  rw [PeerStore.PeerContacts]
  cases hg : (h.Get ih).2 with
  | none => simp
  | some peers =>
    simpa [KNodes] using next_bounds peers

def c4ih : List Nat := List.replicate 20 7

def c4c : List Nat := [97, 98, 99, 101, 100, 102]

/-- The store after: add contact `c4c` for `c4ih`, register `c4ih` as a
local download, then `KillContact c4c` (which marks it dead). -/
def c4store : PeerStore :=
  (((NewPeerStore 8 8).AddContact c4ih c4c).1.AddLocalDownload c4ih 99).KillContact
    c4c

/-- C4 counterexample: in `c4store` the contact `c4c` is stored dead
(flag `false`), yet `PeerContacts` still returns it — the second sweep of
`next()` collects contacts without re-checking aliveness, refuting "every
returned contact is alive". -/
theorem claim_C4_counterexample :
    (c4store.PeerContacts c4ih).2 = [c4c] ∧
    mapGet ((c4store.Get c4ih).2.getD { set := [], ring := [] }).set c4c =
      some false := by decide

/-! ## C5: AddContact behaviour and bounds -/

theorem mem_of_mapGet {κ α : Type} [DecidableEq κ] {s : List (κ × α)} {k : κ} {v : α}
    (h : mapGet s k = some v) : (k, v) ∈ s := by
  induction s with
  | nil => simp [mapGet] at h
  | cons kv rest ih =>
    obtain ⟨a, b⟩ := kv
    rw [mapGet] at h
    by_cases hk : k = a
    · rw [if_pos hk] at h
      subst hk
      simp at h
      simp [h]
    · rw [if_neg hk] at h
      simp [ih h]

theorem mapGet_eq_none_iff {κ α : Type} [DecidableEq κ] {s : List (κ × α)} {k : κ} :
    mapGet s k = none ↔ k ∉ s.map (·.1) := by
  induction s with
  | nil => simp [mapGet]
  | cons kv rest ih =>
    obtain ⟨a, b⟩ := kv
    rw [mapGet]
    by_cases hk : k = a
    · subst hk
      simp
    · rw [if_neg hk]
      simp [hk, ih]

theorem mapGet_mapPut_self {κ α : Type} [DecidableEq κ] (s : List (κ × α)) (k : κ) (v : α) :
    mapGet (mapPut s k v) k = some v := by
  induction s with
  | nil => simp [mapPut, mapGet]
  | cons kv rest ih =>
    obtain ⟨a, b⟩ := kv
    rw [mapPut]
    by_cases hk : k = a
    · rw [if_pos hk, mapGet, if_pos hk]
    · rw [if_neg hk, mapGet, if_neg hk]
      exact ih

theorem mapGet_mapPut_ne {κ α : Type} [DecidableEq κ] {s : List (κ × α)} {k k2 : κ}
    (h : k2 ≠ k) (v : α) : mapGet (mapPut s k v) k2 = mapGet s k2 := by
  induction s with
  | nil => simp [mapPut, mapGet, h]
  | cons kv rest ih =>
    obtain ⟨a, b⟩ := kv
    rw [mapPut]
    by_cases hk : k = a
    · subst hk
      simp only [mapGet]
      rw [if_neg h, if_neg h]
    · rw [if_neg hk]
      simp only [mapGet]
      by_cases hk2 : k2 = a
      · rw [if_pos hk2, if_pos hk2]
      · rw [if_neg hk2, if_neg hk2]
        exact ih

theorem length_mapPut_present {κ α : Type} [DecidableEq κ] {s : List (κ × α)} {k : κ}
    (h : setMem s k = true) (v : α) : (mapPut s k v).length = s.length := by
  induction s with
  | nil => simp [setMem, mapGet] at h
  | cons kv rest ih =>
    obtain ⟨a, b⟩ := kv
    rw [mapPut]
    by_cases hk : k = a
    · rw [if_pos hk]
      simp
    · rw [if_neg hk]
      rw [setMem, mapGet, if_neg hk] at h
      simp [ih h]

theorem length_mapPut_absent {κ α : Type} [DecidableEq κ] {s : List (κ × α)} {k : κ}
    (h : setMem s k = false) (v : α) : (mapPut s k v).length = s.length + 1 := by
  induction s with
  | nil => simp [mapPut]
  | cons kv rest ih =>
    obtain ⟨a, b⟩ := kv
    rw [mapPut]
    by_cases hk : k = a
    · rw [setMem, mapGet, if_pos hk] at h
      simp at h
    · rw [if_neg hk]
      rw [setMem, mapGet, if_neg hk] at h
      simp [ih h]

theorem keys_mapPut_present {κ α : Type} [DecidableEq κ] {s : List (κ × α)} {k : κ}
    (h : setMem s k = true) (v : α) : (mapPut s k v).map (·.1) = s.map (·.1) := by
  induction s with
  | nil => simp [setMem, mapGet] at h
  | cons kv rest ih =>
    obtain ⟨a, b⟩ := kv
    rw [mapPut]
    by_cases hk : k = a
    · rw [if_pos hk]
      simp [hk]
    · rw [if_neg hk]
      rw [setMem, mapGet, if_neg hk] at h
      simp [ih h]

theorem keys_mapPut_absent {κ α : Type} [DecidableEq κ] {s : List (κ × α)} {k : κ}
    (h : setMem s k = false) (v : α) :
    (mapPut s k v).map (·.1) = s.map (·.1) ++ [k] := by
  induction s with
  | nil => simp [mapPut]
  | cons kv rest ih =>
    obtain ⟨a, b⟩ := kv
    rw [mapPut]
    by_cases hk : k = a
    · rw [setMem, mapGet, if_pos hk] at h
      simp at h
    · rw [if_neg hk]
      rw [setMem, mapGet, if_neg hk] at h
      simp [ih h]

theorem mem_mapPut {κ α : Type} [DecidableEq κ] {s : List (κ × α)} {k : κ} {v : α}
    {kv : κ × α} (h : kv ∈ mapPut s k v) : kv = (k, v) ∨ kv ∈ s := by
  induction s with
  | nil => simpa [mapPut] using h
  | cons ab rest ih =>
    obtain ⟨a, b⟩ := ab
    rw [mapPut] at h
    by_cases hk : k = a
    · rw [if_pos hk] at h
      subst hk
      rcases List.mem_cons.mp h with h | h
      · exact Or.inl h
      · exact Or.inr (List.mem_cons_of_mem _ h)
    · rw [if_neg hk] at h
      rcases List.mem_cons.mp h with h | h
      · exact Or.inr (by simp [h])
      · rcases ih h with h | h
        · exact Or.inl h
        · exact Or.inr (List.mem_cons_of_mem _ h)

theorem mapDel_sublist {κ α : Type} [DecidableEq κ] (s : List (κ × α)) (k : κ) :
    (mapDel s k).Sublist s := by
  induction s with
  | nil => simp [mapDel]
  | cons kv rest ih =>
    obtain ⟨a, b⟩ := kv
    rw [mapDel]
    by_cases hk : k = a
    · rw [if_pos hk]
      exact List.sublist_cons_self _ _
    · rw [if_neg hk]
      exact List.Sublist.cons₂ _ ih

theorem length_mapDel_present {κ α : Type} [DecidableEq κ] {s : List (κ × α)} {k : κ}
    (h : setMem s k = true) : (mapDel s k).length + 1 = s.length := by
  induction s with
  | nil => simp [setMem, mapGet] at h
  | cons kv rest ih =>
    obtain ⟨a, b⟩ := kv
    rw [mapDel]
    by_cases hk : k = a
    · rw [if_pos hk]
      simp
    · rw [if_neg hk]
      rw [setMem, mapGet, if_neg hk] at h
      simp [← ih h]

theorem mapGet_mapDel_self {κ α : Type} [DecidableEq κ] {s : List (κ × α)} {k : κ}
    (hnd : (s.map (·.1)).Nodup) : mapGet (mapDel s k) k = none := by
  induction s with
  | nil => simp [mapDel, mapGet]
  | cons kv rest ih =>
    obtain ⟨a, b⟩ := kv
    simp only [List.map_cons, List.nodup_cons] at hnd
    rw [mapDel]
    by_cases hk : k = a
    · rw [if_pos hk]
      subst hk
      rw [mapGet_eq_none_iff]
      exact hnd.1
    · rw [if_neg hk, mapGet, if_neg hk]
      exact ih hnd.2

theorem mapGet_mapDel_ne {κ α : Type} [DecidableEq κ] {s : List (κ × α)} {k k2 : κ}
    (h : k2 ≠ k) : mapGet (mapDel s k) k2 = mapGet s k2 := by
  induction s with
  | nil => simp [mapDel]
  | cons kv rest ih =>
    obtain ⟨a, b⟩ := kv
    rw [mapDel]
    by_cases hk : k = a
    · rw [if_pos hk]
      subst hk
      rw [mapGet, if_neg h]
    · rw [if_neg hk, mapGet, mapGet]
      by_cases hk2 : k2 = a
      · rw [if_pos hk2, if_pos hk2]
      · rw [if_neg hk2, if_neg hk2]
        exact ih

theorem ringNextVal_ringLink (ring : List (List Nat)) (c : List Nat) :
    ringNextVal (ringLink ring c) = some c := by
  cases ring <;> rfl

/-- Well-formedness of a stored contact set: bounded by `maxPeers`; at
capacity the cursor-next ring element is a stored key (so a drop really
shrinks the set); stored keys are distinct and at least 6 bytes. -/
def PCSWF (maxPeers : Nat) (p : peerContactsSet) : Prop :=
  p.set.length ≤ maxPeers ∧
  (p.set.length = maxPeers →
    (ringNextVal p.ring).any (fun nid => setMem p.set nid) = true) ∧
  (p.set.map (·.1)).Nodup ∧
  (∀ kv ∈ p.set, 6 ≤ kv.1.length)

instance (maxPeers : Nat) (p : peerContactsSet) : Decidable (PCSWF maxPeers p) := by
  unfold PCSWF
  infer_instance

theorem setMem_false_iff {κ α : Type} [DecidableEq κ] {s : List (κ × α)} {k : κ} :
    setMem s k = false ↔ mapGet s k = none := by
  rw [setMem]
  cases mapGet s k <;> simp

theorem put_wf {max : Nat} {p : peerContactsSet} (hlen : p.set.length < max)
    (hnd : (p.set.map (·.1)).Nodup) (hkl : ∀ kv ∈ p.set, 6 ≤ kv.1.length)
    (c : List Nat) : PCSWF max (p.put c).1 := by
  rw [peerContactsSet.put]
  by_cases hshort : c.length < 6
  · rw [if_pos hshort]
    show PCSWF max p
    exact ⟨le_of_lt hlen, fun h => absurd h (by omega), hnd, hkl⟩
  · rw [if_neg hshort]
    by_cases halive : setValD p.set c = true
    · rw [if_pos halive]
      show PCSWF max p
      exact ⟨le_of_lt hlen, fun h => absurd h (by omega), hnd, hkl⟩
    · rw [if_neg halive]
      show PCSWF max { set := mapPut p.set c true, ring := ringLink p.ring c }
      by_cases hm : setMem p.set c = true
      · refine ⟨?_, ?_, ?_, ?_⟩
        · show (mapPut p.set c true).length ≤ max
          rw [length_mapPut_present hm]
          exact le_of_lt hlen
        · intro hcap
          simp only [length_mapPut_present hm] at hcap
          omega
        · show ((mapPut p.set c true).map (·.1)).Nodup
          rw [keys_mapPut_present hm]
          exact hnd
        · intro kv hkv
          rcases mem_mapPut hkv with h | h
          · rw [h]
            show 6 ≤ c.length
            omega
          · exact hkl kv h
      · have hm2 : setMem p.set c = false := by
          cases hx : setMem p.set c
          · rfl
          · exact absurd hx hm
        refine ⟨?_, ?_, ?_, ?_⟩
        · show (mapPut p.set c true).length ≤ max
          rw [length_mapPut_absent hm2]
          omega
        · intro _
          show (ringNextVal (ringLink p.ring c)).any
            (fun nid => setMem (mapPut p.set c true) nid) = true
          rw [ringNextVal_ringLink]
          simp only [Option.any_some, setMem, mapGet_mapPut_self, Option.isSome_some]
        · show ((mapPut p.set c true).map (·.1)).Nodup
          rw [keys_mapPut_absent hm2]
          refine List.Nodup.append hnd (List.nodup_singleton c) ?_
          intro a ha hb
          simp only [List.mem_singleton] at hb
          subst hb
          exact (mapGet_eq_none_iff.mp (setMem_false_iff.mp hm2)) ha
        · intro kv hkv
          rcases mem_mapPut hkv with h | h
          · rw [h]
            show 6 ≤ c.length
            omega
          · exact hkl kv h

theorem drop_at_cap {max : Nat} {p : peerContactsSet} (hwf : PCSWF max p)
    (hsz : p.set.length = max) (hmax : 1 ≤ max) :
    ∃ nid, ringNextVal p.ring = some nid ∧
      p.drop [] = ({ set := mapDel p.set nid, ring := (ringUnlinkNext p.ring).1 }, nid) ∧
      setMem p.set nid = true ∧
      nid ≠ [] ∧
      (p.drop []).1.set.length + 1 = max ∧
      ((p.drop []).1.set.map (·.1)).Nodup ∧
      (∀ kv ∈ (p.drop []).1.set, 6 ≤ kv.1.length) ∧
      mapGet (p.drop []).1.set nid = none := by
  obtain ⟨hle, hcap, hnd, hkl⟩ := hwf
  have hany := hcap hsz
  cases hr : ringNextVal p.ring with
  | none => rw [hr] at hany; simp at hany
  | some nid =>
    rw [hr] at hany
    simp only [Option.any_some] at hany
    have hlen6 : 6 ≤ nid.length := by
      cases hv : mapGet p.set nid with
      | none => rw [setMem, hv] at hany; simp at hany
      | some b => exact hkl (nid, b) (mem_of_mapGet hv)
    have hne : nid ≠ [] := by
      intro hcon
      rw [hcon] at hlen6
      simp at hlen6
    have hdrop : p.drop [] =
        ({ set := mapDel p.set nid, ring := (ringUnlinkNext p.ring).1 }, nid) := by
      by_cases hal : setValD p.set nid = true <;>
        simp [peerContactsSet.drop, peerContactsSet.dropDead,
          peerContactsSet.dropNamed, hr, hal, hne]
    refine ⟨nid, ?_, ?_, ?_, ?_, ?_, ?_, ?_, ?_⟩
    · rfl
    · exact hdrop
    · exact hany
    · exact hne
    · rw [hdrop]
      show (mapDel p.set nid).length + 1 = max
      rw [length_mapDel_present hany, hsz]
    · rw [hdrop]
      exact List.Nodup.sublist (List.Sublist.map _ (mapDel_sublist p.set nid)) hnd
    · rw [hdrop]
      intro kv hkv
      exact hkl kv ((mapDel_sublist p.set nid).mem hkv)
    · rw [hdrop]
      exact mapGet_mapDel_self hnd

theorem setValD_imp_setMem {s : List (List Nat × Bool)} {k : List Nat}
    (h : setValD s k = true) : setMem s k = true := by
  rw [setValD] at h
  rw [setMem]
  cases hg : mapGet s k
  · rw [hg] at h
    simp at h
  · simp

theorem mem_keys_of_mapGet {κ α : Type} [DecidableEq κ] {s : List (κ × α)} {k : κ}
    {v : α} (h : mapGet s k = some v) : k ∈ s.map (·.1) :=
  List.mem_map.mpr ⟨(k, v), mem_of_mapGet h, rfl⟩

theorem mapGet_mapDel_none {κ α : Type} [DecidableEq κ] {s : List (κ × α)} {k : κ}
    (h : mapGet s k = none) (d : κ) : mapGet (mapDel s d) k = none := by
  cases hg : mapGet (mapDel s d) k with
  | none => rfl
  | some v =>
    exact absurd (mapGet_eq_none_iff.mp h)
      (not_not.mpr (List.mem_map.mpr ⟨(k, v),
        (mapDel_sublist s d).mem (mem_of_mapGet hg), rfl⟩))

theorem keys_eraseP_not_mem {α : Type} :
    ∀ {s : List (List Nat × α)}, (s.map (·.1)).Nodup → ∀ (k : List Nat),
    k ∉ (s.eraseP (fun kv => kv.1 == k)).map (·.1)
  | [], _, k => by simp
  | (a, b) :: rest, hnd, k => by
    simp only [List.map_cons, List.nodup_cons] at hnd
    rw [List.eraseP_cons]
    by_cases hk : a = k
    · simp only [hk, beq_self_eq_true, cond_true]
      intro hmem
      exact hnd.1 (hk ▸ hmem)
    · have : ((a, b).1 == k) = false := by
        simp only [beq_eq_false_iff_ne, ne_eq]
        exact hk
      rw [this]
      simp only [cond_false, List.map_cons, List.mem_cons]
      rintro (h | h)
      · exact hk h.symm
      · exact keys_eraseP_not_mem hnd.2 k h

theorem lruGet_mem {c : LruCache} {k : List Nat}
    {kv : List Nat × peerContactsSet} (h : kv ∈ (c.get k).1.entries) :
    kv ∈ c.entries := by
  rw [LruCache.get] at h
  cases hg : mapGet c.entries k with
  | none => rw [hg] at h; exact h
  | some v =>
    rw [hg] at h
    simp only [List.mem_cons] at h
    rcases h with h | h
    · rw [h]
      exact mem_of_mapGet hg
    · exact (List.eraseP_sublist c.entries).mem h

theorem lruGet_keys_nodup {c : LruCache} (hnd : (c.entries.map (·.1)).Nodup)
    (k : List Nat) : ((c.get k).1.entries.map (·.1)).Nodup := by
  rw [LruCache.get]
  cases hg : mapGet c.entries k with
  | none => exact hnd
  | some v =>
    simp only [List.map_cons, List.nodup_cons]
    refine ⟨keys_eraseP_not_mem hnd k, ?_⟩
    exact List.Nodup.sublist (List.Sublist.map _ (List.eraseP_sublist c.entries)) hnd

theorem lruGet_mapGet_self (c : LruCache) (k : List Nat) :
    mapGet (c.get k).1.entries k = mapGet c.entries k := by
  rw [LruCache.get]
  cases hg : mapGet c.entries k with
  | none => exact hg
  | some v => simp [mapGet]

theorem lruAdd_mem {c : LruCache} {k : List Nat} {v : peerContactsSet}
    {kv : List Nat × peerContactsSet} (h : kv ∈ (c.add k v).entries) :
    kv = (k, v) ∨ kv ∈ c.entries := by
  rw [LruCache.add] at h
  cases hg : mapGet c.entries k with
  | some w =>
    rw [hg] at h
    simp only [List.mem_cons] at h
    rcases h with h | h
    · exact Or.inl h
    · exact Or.inr ((List.eraseP_sublist c.entries).mem h)
  | none =>
    rw [hg] at h
    simp only [] at h
    by_cases hif : 0 < c.maxEntries ∧ c.maxEntries < ((k, v) :: c.entries).length
    · rw [if_pos hif] at h
      have h2 := (List.dropLast_sublist ((k, v) :: c.entries)).mem h
      simp only [List.mem_cons] at h2
      exact h2
    · rw [if_neg hif] at h
      simp only [List.mem_cons] at h
      exact h

theorem lruAdd_keys_nodup {c : LruCache} (hnd : (c.entries.map (·.1)).Nodup)
    (k : List Nat) (v : peerContactsSet) :
    ((c.add k v).entries.map (·.1)).Nodup := by
  rw [LruCache.add]
  cases hg : mapGet c.entries k with
  | some w =>
    simp only [List.map_cons, List.nodup_cons]
    exact ⟨keys_eraseP_not_mem hnd k,
      List.Nodup.sublist (List.Sublist.map _ (List.eraseP_sublist c.entries)) hnd⟩
  | none =>
    have hcons : (((k, v) :: c.entries).map (·.1)).Nodup := by
      simp only [List.map_cons, List.nodup_cons]
      exact ⟨mapGet_eq_none_iff.mp hg, hnd⟩
    by_cases hif : 0 < c.maxEntries ∧ c.maxEntries < ((k, v) :: c.entries).length
    · rw [if_pos hif]
      exact List.Nodup.sublist
        (List.Sublist.map _ (List.dropLast_sublist ((k, v) :: c.entries))) hcons
    · rw [if_neg hif]
      exact hcons

theorem lruAdd_mapGet_self (c : LruCache) (k : List Nat) (v : peerContactsSet) :
    mapGet (c.add k v).entries k = some v := by
  rw [LruCache.add]
  cases hg : mapGet c.entries k with
  | some w => simp [mapGet]
  | none =>
    by_cases hif : 0 < c.maxEntries ∧ c.maxEntries < ((k, v) :: c.entries).length
    · rw [if_pos hif]
      cases hc : c.entries with
      | nil =>
        rw [hc] at hif
        simp only [List.length_cons, List.length_nil] at hif
        omega
      | cons a rest =>
        simp [mapGet, List.dropLast]
    · rw [if_neg hif]
      simp [mapGet]

theorem mapGet_dropLast_getLast {α : Type} :
    ∀ {s : List (List Nat × α)} {lv : List Nat × α},
    (s.map (·.1)).Nodup → s.getLast? = some lv →
    mapGet s.dropLast lv.1 = none
  | [], lv, _, hl => by simp at hl
  | [a], lv, _, _ => by simp [mapGet]
  | a :: b :: t, lv, hnd, hl => by
    have hl2 : (b :: t).getLast? = some lv := by
      rw [List.getLast?_cons_cons] at hl
      exact hl
    have hmem : lv ∈ b :: t := by
      obtain ⟨hne2, heq⟩ :=
        List.mem_getLast?_eq_getLast (Option.mem_def.mpr hl2)
      rw [heq]
      exact List.getLast_mem hne2
    rw [List.map_cons, List.nodup_cons] at hnd
    have hne : a.1 ≠ lv.1 := by
      intro hcon
      exact hnd.1 (hcon ▸ List.mem_map.mpr ⟨lv, hmem, rfl⟩)
    show mapGet (a :: (b :: t).dropLast) lv.1 = none
    rw [mapGet]
    cases a with
    | mk a1 a2 =>
      rw [if_neg (fun hcon => hne hcon.symm)]
      exact mapGet_dropLast_getLast hnd.2 hl2

/-! AddContact branch equations. -/

theorem lruGet_2 (c : LruCache) (k : List Nat) :
    (c.get k).2 = mapGet c.entries k := by
  rw [LruCache.get]
  cases mapGet c.entries k <;> rfl

theorem AddContact_none {h : PeerStore} {ih : List Nat} (c : List Nat)
    (hg : mapGet h.InfoHashPeers.entries ih = none) :
    h.AddContact ih c =
      ({ h with InfoHashPeers :=
          h.InfoHashPeers.add ih (peerContactsSet.put { set := [], ring := [] } c).1 },
        (peerContactsSet.put { set := [], ring := [] } c).2) := by
  have hget : h.InfoHashPeers.get ih = (h.InfoHashPeers, none) := by
    rw [LruCache.get, hg]
  simp only [PeerStore.AddContact, hget]

theorem AddContact_under {h : PeerStore} {ih : List Nat} {peers : peerContactsSet}
    (c : List Nat) (hg : mapGet h.InfoHashPeers.entries ih = some peers)
    (hcap : peers.Size < h.MaxInfoHashPeers) :
    h.AddContact ih c =
      ({ h with InfoHashPeers :=
          (h.InfoHashPeers.get ih).1.add ih (peers.put c).1 },
        (peers.put c).2) := by
  simp only [PeerStore.AddContact, lruGet_2, hg]
  rw [if_neg (by omega)]

theorem AddContact_at_mem {h : PeerStore} {ih : List Nat} {peers : peerContactsSet}
    (c : List Nat) (hg : mapGet h.InfoHashPeers.entries ih = some peers)
    (hcap : h.MaxInfoHashPeers ≤ peers.Size) (hm : setMem peers.set c = true) :
    h.AddContact ih c = ({ h with InfoHashPeers := (h.InfoHashPeers.get ih).1 }, false) := by
  simp only [PeerStore.AddContact, lruGet_2, hg]
  rw [if_pos hcap, if_pos hm]

theorem AddContact_at_drop {h : PeerStore} {ih : List Nat} {peers : peerContactsSet}
    (c : List Nat) (hg : mapGet h.InfoHashPeers.entries ih = some peers)
    (hcap : h.MaxInfoHashPeers ≤ peers.Size) (hm : ¬ setMem peers.set c = true)
    (hd : ¬ (peers.drop []).2 = []) :
    h.AddContact ih c =
      ({ h with InfoHashPeers :=
          (h.InfoHashPeers.get ih).1.add ih ((peers.drop []).1.put c).1 },
        ((peers.drop []).1.put c).2) := by
  simp only [PeerStore.AddContact, lruGet_2, hg]
  rw [if_pos hcap, if_neg hm, if_neg hd]

theorem AddContact_at_stuck {h : PeerStore} {ih : List Nat} {peers : peerContactsSet}
    (c : List Nat) (hg : mapGet h.InfoHashPeers.entries ih = some peers)
    (hcap : h.MaxInfoHashPeers ≤ peers.Size) (hm : ¬ setMem peers.set c = true)
    (hd : (peers.drop []).2 = []) :
    h.AddContact ih c = ({ h with InfoHashPeers := (h.InfoHashPeers.get ih).1 }, false) := by
  simp only [PeerStore.AddContact, lruGet_2, hg]
  rw [if_pos hcap, if_neg hm, if_pos hd]

theorem AddContact_Max (h : PeerStore) (ih c : List Nat) :
    (h.AddContact ih c).1.MaxInfoHashPeers = h.MaxInfoHashPeers := by
  cases hg : mapGet h.InfoHashPeers.entries ih with
  | none => rw [AddContact_none c hg]
  | some peers =>
    by_cases hcap : h.MaxInfoHashPeers ≤ peers.Size
    · by_cases hm : setMem peers.set c = true
      · rw [AddContact_at_mem c hg hcap hm]
      · by_cases hd : (peers.drop []).2 = []
        · rw [AddContact_at_stuck c hg hcap hm hd]
        · rw [AddContact_at_drop c hg hcap hm hd]
    · rw [AddContact_under c hg (Nat.lt_of_not_le hcap)]

/-- The peer-store invariant: at least one peer slot per infohash, cache
keys unique, and every cached contact set well-formed. -/
def StoreWF (h : PeerStore) : Prop :=
  1 ≤ h.MaxInfoHashPeers ∧
  (h.InfoHashPeers.entries.map (·.1)).Nodup ∧
  ∀ kv ∈ h.InfoHashPeers.entries, PCSWF h.MaxInfoHashPeers kv.2

instance (h : PeerStore) : Decidable (StoreWF h) := by
  unfold StoreWF
  infer_instance

theorem AddContact_wf {h : PeerStore} (hwf : StoreWF h) (ih c : List Nat) :
    StoreWF (h.AddContact ih c).1 := by
  obtain ⟨hmax1, hknd, hvals⟩ := hwf
  cases hg : mapGet h.InfoHashPeers.entries ih with
  | none =>
    rw [AddContact_none c hg]
    refine ⟨hmax1, lruAdd_keys_nodup hknd ih _, ?_⟩
    intro kv hkv
    rcases lruAdd_mem hkv with hkv2 | hkv2
    · rw [hkv2]
      exact put_wf (by simp only [List.length_nil]; omega) (by simp) (by simp) c
    · exact hvals kv hkv2
  | some peers =>
    have hpcs : PCSWF h.MaxInfoHashPeers peers := hvals (ih, peers) (mem_of_mapGet hg)
    by_cases hcap : h.MaxInfoHashPeers ≤ peers.Size
    · by_cases hm : setMem peers.set c = true
      · rw [AddContact_at_mem c hg hcap hm]
        exact ⟨hmax1, lruGet_keys_nodup hknd ih,
          fun kv hkv => hvals kv (lruGet_mem hkv)⟩
      · by_cases hd : (peers.drop []).2 = []
        · rw [AddContact_at_stuck c hg hcap hm hd]
          exact ⟨hmax1, lruGet_keys_nodup hknd ih,
            fun kv hkv => hvals kv (lruGet_mem hkv)⟩
        · rw [AddContact_at_drop c hg hcap hm hd]
          have hsz : peers.set.length = h.MaxInfoHashPeers := le_antisymm hpcs.1 hcap
          obtain ⟨nid, hr, hdrop, hmemn, hnen, hlen1, hnd1, hkl1, hgone⟩ :=
            drop_at_cap hpcs hsz hmax1
          refine ⟨hmax1, lruAdd_keys_nodup (lruGet_keys_nodup hknd ih) ih _, ?_⟩
          intro kv hkv
          rcases lruAdd_mem hkv with hkv2 | hkv2
          · rw [hkv2]
            exact put_wf
              (show (peers.drop []).1.set.length < h.MaxInfoHashPeers by omega)
              hnd1 hkl1 c
          · exact hvals kv (lruGet_mem hkv2)
    · rw [AddContact_under c hg (Nat.lt_of_not_le hcap)]
      refine ⟨hmax1, lruAdd_keys_nodup (lruGet_keys_nodup hknd ih) ih _, ?_⟩
      intro kv hkv
      rcases lruAdd_mem hkv with hkv2 | hkv2
      · rw [hkv2]
        exact put_wf (Nat.lt_of_not_le hcap) hpcs.2.2.1 hpcs.2.2.2 c
      · exact hvals kv (lruGet_mem hkv2)

theorem Count_le_of_wf {h : PeerStore} (hwf : StoreWF h) (ih : List Nat) :
    h.Count ih ≤ h.MaxInfoHashPeers := by
  cases hg : mapGet h.InfoHashPeers.entries ih with
  | none =>
    simp only [PeerStore.Count, PeerStore.Get, lruGet_2, hg]
    exact Nat.zero_le _
  | some peers =>
    simp only [PeerStore.Count, PeerStore.Get, lruGet_2, hg]
    exact (hwf.2.2 (ih, peers) (mem_of_mapGet hg)).1

theorem Count_of_none {h : PeerStore} {ih : List Nat}
    (hg : mapGet h.InfoHashPeers.entries ih = none) : h.Count ih = 0 := by
  simp only [PeerStore.Count, PeerStore.Get, lruGet_2, hg]

theorem mem_of_getLast?_eq {α : Type} {l : List α} {a : α}
    (h : l.getLast? = some a) : a ∈ l := by
  obtain ⟨hne, heq⟩ := List.mem_getLast?_eq_getLast (Option.mem_def.mpr h)
  rw [heq]
  exact List.getLast_mem hne

/-- What `AddContact` actually guarantees (the amended C5 statement):
the invariant is preserved, the per-infohash count stays within
`MaxInfoHashPeers`, short and present-*alive* contacts are rejected with
the set unchanged, a present contact is rejected when the set is at
capacity, a fresh long contact added at capacity evicts exactly the
contact at the rotation cursor, and a fresh infohash added to a full
cache evicts the least-recently-used infohash, whose count drops to 0. -/
def AddContactSpec (h : PeerStore) (ih c : List Nat) : Prop :=
  StoreWF (h.AddContact ih c).1 ∧
  (h.AddContact ih c).1.Count ih ≤ h.MaxInfoHashPeers ∧
  (c.length < 6 → (h.AddContact ih c).2 = false) ∧
  (∀ peers, mapGet h.InfoHashPeers.entries ih = some peers →
    setValD peers.set c = true →
    (h.AddContact ih c).2 = false ∧
    mapGet (h.AddContact ih c).1.InfoHashPeers.entries ih = some peers) ∧
  (∀ peers, mapGet h.InfoHashPeers.entries ih = some peers →
    h.MaxInfoHashPeers ≤ peers.Size → setMem peers.set c = true →
    (h.AddContact ih c).2 = false) ∧
  (∀ peers, mapGet h.InfoHashPeers.entries ih = some peers →
    h.MaxInfoHashPeers ≤ peers.Size → setMem peers.set c = false →
    6 ≤ c.length →
    ∀ nid, ringNextVal peers.ring = some nid →
      (h.AddContact ih c).2 = true ∧
      ∃ s, mapGet (h.AddContact ih c).1.InfoHashPeers.entries ih = some s ∧
        s.set.length = h.MaxInfoHashPeers ∧
        mapGet s.set nid = none ∧
        mapGet s.set c = some true) ∧
  (mapGet h.InfoHashPeers.entries ih = none →
    h.InfoHashPeers.entries.length = h.InfoHashPeers.maxEntries →
    1 ≤ h.InfoHashPeers.maxEntries →
    ∀ lv, h.InfoHashPeers.entries.getLast? = some lv →
      (h.AddContact ih c).1.Count lv.1 = 0)

/-- C5 (amended): on a well-formed store, `AddContact` preserves the
invariant and keeps the per-infohash contact count within
`MaxInfoHashPeers`; a contact shorter than 6 bytes is rejected; a
present-*alive* contact is rejected with the stored set unchanged (a
present *dead* contact below capacity is instead revived — see the
counterexample); a present contact is always rejected at capacity; a
fresh long contact added at capacity succeeds, evicting exactly the
contact at the rotation cursor; and adding under a fresh infohash while
the LRU cache is full evicts the least-recently-used infohash, whose
count drops to 0. -/
theorem claim_C5 (h : PeerStore) (ih c : List Nat) (hwf : StoreWF h) :
    AddContactSpec h ih c := by
  have hwf2 := hwf
  obtain ⟨hmax1, hknd, hvals⟩ := hwf2
  refine ⟨AddContact_wf hwf ih c, ?_, ?_, ?_, ?_, ?_, ?_⟩
  · have hle := Count_le_of_wf (AddContact_wf hwf ih c) ih
    rw [AddContact_Max h ih c] at hle
    exact hle
  · intro hshort
    cases hg : mapGet h.InfoHashPeers.entries ih with
    | none =>
      rw [AddContact_none c hg]
      show (peerContactsSet.put { set := [], ring := [] } c).2 = false
      rw [peerContactsSet.put, if_pos hshort]
    | some peers =>
      by_cases hcap : h.MaxInfoHashPeers ≤ peers.Size
      · by_cases hm : setMem peers.set c = true
        · rw [AddContact_at_mem c hg hcap hm]
        · by_cases hd : (peers.drop []).2 = []
          · rw [AddContact_at_stuck c hg hcap hm hd]
          · rw [AddContact_at_drop c hg hcap hm hd]
            show ((peers.drop []).1.put c).2 = false
            rw [peerContactsSet.put, if_pos hshort]
      · rw [AddContact_under c hg (Nat.lt_of_not_le hcap)]
        show (peers.put c).2 = false
        rw [peerContactsSet.put, if_pos hshort]
  · intro peers hg hal
    have hm : setMem peers.set c = true := setValD_imp_setMem hal
    by_cases hcap : h.MaxInfoHashPeers ≤ peers.Size
    · rw [AddContact_at_mem c hg hcap hm]
      refine ⟨rfl, ?_⟩
      show mapGet (h.InfoHashPeers.get ih).1.entries ih = some peers
      rw [lruGet_mapGet_self]
      exact hg
    · rw [AddContact_under c hg (Nat.lt_of_not_le hcap)]
      have hput : peers.put c = (peers, false) := by
        rw [peerContactsSet.put]
        by_cases hshort : c.length < 6
        · rw [if_pos hshort]
        · rw [if_neg hshort, if_pos hal]
      rw [hput]
      exact ⟨rfl, lruAdd_mapGet_self _ _ _⟩
  · intro peers hg hcap hm
    rw [AddContact_at_mem c hg hcap hm]
  · intro peers hg hcap hm hclen nid hr
    have hpcs : PCSWF h.MaxInfoHashPeers peers :=
      hvals (ih, peers) (mem_of_mapGet hg)
    have hsz : peers.set.length = h.MaxInfoHashPeers := le_antisymm hpcs.1 hcap
    obtain ⟨nid2, hr2, hdrop, hmemn, hnen, hlen1, hnd1, hkl1, hgone⟩ :=
      drop_at_cap hpcs hsz hmax1
    have hnid : nid2 = nid := Option.some.inj (hr2.symm.trans hr)
    subst hnid
    have hd : ¬ (peers.drop []).2 = [] := by
      rw [hdrop]
      exact hnen
    have hm2 : ¬ setMem peers.set c = true := by
      rw [hm]
      exact Bool.false_ne_true
    rw [AddContact_at_drop c hg hcap hm2 hd]
    have hcnot : mapGet (peers.drop []).1.set c = none := by
      rw [hdrop]
      show mapGet (mapDel peers.set nid2) c = none
      exact mapGet_mapDel_none (setMem_false_iff.mp hm) nid2
    have hval : setValD (peers.drop []).1.set c = false := by
      rw [setValD, hcnot]
      rfl
    have hput : (peers.drop []).1.put c =
        ({ set := mapPut (peers.drop []).1.set c true,
           ring := ringLink (peers.drop []).1.ring c }, true) := by
      rw [peerContactsSet.put, if_neg (by omega),
        if_neg (by rw [hval]; exact Bool.false_ne_true)]
    refine ⟨by rw [hput], ?_⟩
    refine ⟨((peers.drop []).1.put c).1, lruAdd_mapGet_self _ _ _, ?_, ?_, ?_⟩
    · rw [hput]
      show (mapPut (peers.drop []).1.set c true).length = _
      rw [length_mapPut_absent (setMem_false_iff.mpr hcnot)]
      omega
    · rw [hput]
      show mapGet (mapPut (peers.drop []).1.set c true) nid2 = none
      have hnidc : nid2 ≠ c := by
        intro hcon
        rw [hcon] at hmemn
        exact Bool.false_ne_true (hm.symm.trans hmemn)
      rw [mapGet_mapPut_ne hnidc]
      exact hgone
    · rw [hput]
      exact mapGet_mapPut_self _ _ _
  · intro hg hlen hemax lv hlast
    rw [AddContact_none c hg]
    have hlv : lv.1 ≠ ih := by
      intro hcon
      exact (mapGet_eq_none_iff.mp hg)
        (hcon ▸ List.mem_map.mpr ⟨lv, mem_of_getLast?_eq hlast, rfl⟩)
    have hnone : mapGet
        (h.InfoHashPeers.add ih
          (peerContactsSet.put { set := [], ring := [] } c).1).entries lv.1 = none := by
      rw [LruCache.add, hg]
      have hif : 0 < h.InfoHashPeers.maxEntries ∧
          h.InfoHashPeers.maxEntries <
            ((ih, (peerContactsSet.put { set := [], ring := [] } c).1) ::
              h.InfoHashPeers.entries).length := by
        constructor
        · omega
        · simp only [List.length_cons]
          omega
      rw [if_pos hif]
      cases hc : h.InfoHashPeers.entries with
      | nil =>
        rw [hc] at hlast
        simp at hlast
      | cons a rest =>
        show mapGet ((ih, (peerContactsSet.put { set := [], ring := [] } c).1) ::
          (a :: rest).dropLast) lv.1 = none
        rw [mapGet, if_neg hlv]
        exact mapGet_dropLast_getLast (hc ▸ hknd) (hc ▸ hlast)
    exact Count_of_none hnone

def c5ih : List Nat := List.replicate 20 9

def c5c : List Nat := [10, 11, 12, 13, 0, 80]

/-- Witness for C5: the invariant hypothesis holds for a freshly created
store and the theorem applies to it. -/
theorem claim_C5_witness :
    StoreWF (NewPeerStore 1 2) ∧ AddContactSpec (NewPeerStore 1 2) c5ih c5c :=
  ⟨by decide, claim_C5 (NewPeerStore 1 2) c5ih c5c (by decide)⟩

/-- A store holding `c5c` as a present but *dead* contact under `c5ih`,
with room to spare. -/
def c5dead : PeerStore :=
  ((((NewPeerStore 4 8).AddContact c5ih c5c).1.AddLocalDownload c5ih 99).KillContact
    c5c)

/-- Counterexample to the claim as worded: `c5c` is already present in the
set for `c5ih` (with a dead flag), yet `AddContact` returns `true` — `put`
tests `if ok := p.set[c]; ok`, which reads the stored *value*, so a
present dead contact is revived rather than rejected. -/
theorem claim_C5_counterexample :
    mapGet c5dead.InfoHashPeers.entries c5ih =
      some { set := [(c5c, false)], ring := [c5c] } ∧
    (c5dead.AddContact c5ih c5c).2 = true := by decide

/-! ## C3: replyAnnouncePeer -/

/-- Modelled from the spec: `util.DottedPortToBinary(net.TCPAddr{IP: ip,
Port: port}.String())` — the binary contact address is the 4 IP bytes of
the datagram's source followed by the port in big-endian ("abcdef" ↔
97.98.99.100:25958). -/
def contactOf (ip : List Nat) (port : Nat) : List Nat :=
  ip ++ [port / 256 % 256, port % 256]

/-- `remoteNode.SearchRetryPeriod = 15 * time.Second`, in seconds. -/
def SearchRetryPeriod : Int := 15

/-- `remoteNode.ReplyMessage` restricted to what `replyAnnouncePeer`
sends: transaction id `T`, `Y`, and the `R` dictionary. -/
structure ReplyMessage where
  T : List Nat
  Y : String
  R : List (String × List Nat)
deriving DecidableEq, Repr

/-- Everything `replyAnnouncePeer` changes or sends: the peer store, the
correlated sender node (its `LastResponseTime`), what goes to the
`PeersRequestResults` channel, and the UDP reply. -/
structure AnnounceOutcome where
  store : PeerStore
  node : Option RemoteNode
  emitted : List (List Nat × List (List Nat))
  reply : ReplyMessage
deriving Repr

/-- `DHT.replyAnnouncePeer`: when the sender is a known node and the token
checks out against one of the two secrets, add `contactOf addrIP port`
under `ih`, pull the node's `LastResponseTime` back by
`SearchRetryPeriod`, and emit the contact on `PeersRequestResults` iff
the infohash is a local download; in every case send `{id}`. -/
def replyAnnouncePeer (sha1 : List Nat → List Nat) (tokenSecrets : List (List Nat))
    (nodeId : List Nat) (store : PeerStore) (addrIP addrString : List Nat)
    (node : Option RemoteNode) (rT ih token : List Nat) (port : Nat) (now : Int) :
    AnnounceOutcome :=
  if node.isSome && checkToken sha1 tokenSecrets addrString token then
    let contact := contactOf addrIP port
    let ac := store.AddContact ih contact
    let node2 := node.map (fun n => { n with LastResponseTime := now - SearchRetryPeriod })
    let dport := ac.1.HasLocalDownload ih
    { store := ac.1,
      node := node2,
      emitted := if dport ≠ 0 then [(ih, [contact])] else [],
      reply := { T := rT, Y := "r", R := [("id", nodeId)] } }
  else
    { store := store, node := node, emitted := [],
      reply := { T := rT, Y := "r", R := [("id", nodeId)] } }

/-- C3: the reply is always positive and carries only the local id; with
an unknown sender or a failing token the peer store and the node are left
untouched and nothing is emitted; with a known sender and a valid token
the announcer's contact (datagram IP, argument port) is stored and the
node's `LastResponseTime` is shifted back by `SearchRetryPeriod`; and
against the two rotating secrets the token check is exactly "matches the
current or the previous secret". -/
theorem claim_C3 (sha1 : List Nat → List Nat) (tokenSecrets : List (List Nat))
    (nodeId : List Nat) (store : PeerStore) (addrIP addrString : List Nat)
    (node : Option RemoteNode) (rT ih token : List Nat) (port : Nat) (now : Int) :
    (replyAnnouncePeer sha1 tokenSecrets nodeId store addrIP addrString node
      rT ih token port now).reply = { T := rT, Y := "r", R := [("id", nodeId)] } ∧
    ((node = none ∨ checkToken sha1 tokenSecrets addrString token = false) →
      (replyAnnouncePeer sha1 tokenSecrets nodeId store addrIP addrString node
        rT ih token port now).store = store ∧
      (replyAnnouncePeer sha1 tokenSecrets nodeId store addrIP addrString node
        rT ih token port now).node = node ∧
      (replyAnnouncePeer sha1 tokenSecrets nodeId store addrIP addrString node
        rT ih token port now).emitted = []) ∧
    (∀ n, node = some n → checkToken sha1 tokenSecrets addrString token = true →
      (replyAnnouncePeer sha1 tokenSecrets nodeId store addrIP addrString node
        rT ih token port now).store =
          (store.AddContact ih (contactOf addrIP port)).1 ∧
      (replyAnnouncePeer sha1 tokenSecrets nodeId store addrIP addrString node
        rT ih token port now).node =
        some { n with LastResponseTime := now - SearchRetryPeriod }) ∧
    (∀ s0 s1, tokenSecrets = [s0, s1] →
      checkToken sha1 tokenSecrets addrString token =
        (hostToken sha1 addrString s0 == token ||
          hostToken sha1 addrString s1 == token)) := by
  refine ⟨?_, ?_, ?_, ?_⟩
  · rw [replyAnnouncePeer]
    split <;> rfl
  · intro hcase
    have hcond : (node.isSome && checkToken sha1 tokenSecrets addrString token)
        = false := by
      rcases hcase with h | h
      · rw [h]
        rfl
      · rw [h, Bool.and_false]
    rw [replyAnnouncePeer, hcond]
    rw [if_neg Bool.false_ne_true]
    exact ⟨rfl, rfl, rfl⟩
  · intro n hn hc
    rw [replyAnnouncePeer, hn, hc]
    have hcond : ((some n).isSome && true) = true := rfl
    rw [if_pos hcond]
    exact ⟨rfl, rfl⟩
  · intro s0 s1 hsec
    rw [hsec, checkToken]
    simp

/-! ## C6: routing-table cleanup and Kill -/

/-- Modelled from the spec: decimal ASCII rendering of a number up to
65535 (enough for IP bytes and ports), as `nettools` prints them. -/
def decDigits (n : Nat) : List Nat :=
  if n < 10 then [48 + n]
  else if n < 100 then [48 + n / 10, 48 + n % 10]
  else if n < 1000 then [48 + n / 100, 48 + n / 10 % 10, 48 + n % 10]
  else if n < 10000 then
    [48 + n / 1000, 48 + n / 100 % 10, 48 + n / 10 % 10, 48 + n % 10]
  else [48 + n / 10000, 48 + n / 1000 % 10, 48 + n / 100 % 10,
    48 + n / 10 % 10, 48 + n % 10]

/-- Modelled from the spec: `nettools.BinaryToDottedPort` — a 6-byte
binary contact "abcdef" becomes the dotted ASCII "97.98.99.100:25958"
(46 = '.', 58 = ':'); anything else yields "". -/
def BinaryToDottedPort (b : List Nat) : List Nat :=
  match b with
  | [a, b2, c, d, p1, p2] =>
    decDigits a ++ [46] ++ decDigits b2 ++ [46] ++ decDigits c ++ [46] ++
      decDigits d ++ [58] ++ decDigits (p1 * 256 + p2)
  | _ => []

/-- `RoutingTable`: the `host:port → node` index and the prefix tree.
The neighborhood-boundary fields are not modelled: `Kill`'s boundary
reset touches only them and the claims do not mention them. -/
structure RoutingTable where
  Addresses : List (List Nat × RemoteNode)
  tree : nTree
deriving Repr

/-- `RoutingTable.Kill`: drop the node from the address index, cut its
id out of the tree, and ask the peer store to mark its contact dead —
passing the *dotted* form of the binary contact address. -/
def RoutingTable.Kill (r : RoutingTable) (n : RemoteNode) (p : PeerStore) :
    RoutingTable × PeerStore :=
  ({ Addresses := mapDel r.Addresses n.AddressString,
     tree := (r.tree.Cut n.ID 0).1 },
   p.KillContact (BinaryToDottedPort n.AddressBinaryFormat))

/-- One `Cleanup` loop iteration over an `(addr, node)` entry. -/
def cleanupStep (cleanupPeriod now : Int)
    (acc : RoutingTable × PeerStore × List RemoteNode)
    (kv : List Nat × RemoteNode) : RoutingTable × PeerStore × List RemoteNode :=
  let r := acc.1
  let p := acc.2.1
  let needPing := acc.2.2
  let addr := kv.1
  let n := kv.2
  if addr ≠ n.AddressString then
    let k := r.Kill n p
    (k.1, k.2, needPing)
  else if addr = [] then
    let k := r.Kill n p
    (k.1, k.2, needPing)
  else if n.Reachable then
    if n.PendingQueries.length = 0 then (r, p, needPing ++ [n])
    else if cleanupPeriod * 2 + cleanupPeriod / 15 < now - n.LastResponseTime then
      let k := r.Kill n p
      (k.1, k.2, needPing)
    else if now - n.LastResponseTime < cleanupPeriod / 2 then (r, p, needPing)
    else (r, p, needPing ++ [n])
  else
    if MaxNodePendingQueries < n.PendingQueries.length then
      let k := r.Kill n p
      (k.1, k.2, needPing)
    else (r, p, needPing ++ [n])

/-- `RoutingTable.Cleanup`: fold the per-entry step over the address
index, collecting the nodes that need a ping. -/
def RoutingTable.Cleanup (r : RoutingTable) (cleanupPeriod now : Int)
    (p : PeerStore) : RoutingTable × PeerStore × List RemoteNode :=
  r.Addresses.foldl (cleanupStep cleanupPeriod now) (r, p, [])

def c6ih : List Nat := List.replicate 20 3

/-- The spec's own example contact: "abcdef" ↔ 97.98.99.100:25958. -/
def c6c : List Nat := [97, 98, 99, 100, 101, 102]

def c6id : List Nat := List.replicate 20 42

/-- A node that never replied: not reachable, 6 pending queries. -/
def c6n : RemoteNode :=
  { ID := c6id,
    AddressString := BinaryToDottedPort c6c,
    AddressBinaryFormat := c6c,
    PendingQueries := List.replicate 6 ("aa", { qtype := "ping" }),
    Reachable := false }

/-- A healthy node: reachable, no pending queries. -/
def c6n2 : RemoteNode :=
  { ID := List.replicate 20 77,
    AddressString := [49, 58, 49],
    AddressBinaryFormat := [1, 1, 1, 1, 0, 1],
    Reachable := true }

/-- A store that knows `c6c` as an alive contact of `c6ih`, with the
infohash locally active so `KillContact` does reach its contact set. -/
def c6store : PeerStore :=
  (((NewPeerStore 4 8).AddContact c6ih c6c).1.AddLocalDownload c6ih 7)

def c6rt : RoutingTable :=
  { Addresses := [(c6n.AddressString, c6n)], tree := emptyTree.Insert c6n }

def c6rt2 : RoutingTable :=
  { Addresses := [(c6n2.AddressString, c6n2)], tree := emptyTree.Insert c6n2 }

/-- C6: the never-replied node (not reachable, 6 > 5 pending queries) is
killed by `Cleanup` — gone from the address index and from the tree, not
pinged — but its peer contact is NOT marked dead: `Kill` hands
`KillContact` the dotted "97.98.99.100:25958" while the store's sets are
keyed by the 6-byte binary contact, so the lookup misses and the contact
stays alive (the code-bug divergence from the spec).  A reachable node
with no pending queries is kept and returned in `needPing`. -/
theorem claim_C6 :
    mapGet (c6rt.Cleanup 900 0 c6store).1.Addresses c6n.AddressString = none ∧
    (c6rt.Cleanup 900 0 c6store).1.tree.vals = [] ∧
    (c6rt.Cleanup 900 0 c6store).2.2 = [] ∧
    (BinaryToDottedPort c6c).length ≠ c6c.length ∧
    mapGet (c6rt.Cleanup 900 0 c6store).2.1.InfoHashPeers.entries c6ih =
      some { set := [(c6c, true)], ring := [c6c] } ∧
    (c6rt2.Cleanup 900 0 c6store).1.Addresses = c6rt2.Addresses ∧
    (c6rt2.Cleanup 900 0 c6store).2.2 = [c6n2] := by decide

/-! ## C7: the rate-limiting token bucket -/

/-- The loop state relevant to rate limiting: the (post-setup) rate
limit, the bucket, and how many ingress packets were processed or
dropped. -/
structure LoopState where
  rateLimit : Int
  tokenBucket : Int
  processed : Nat
  dropped : Nat
deriving DecidableEq, Repr

/-- Loop setup: `tokenBucket := d.config.RateLimit` happens *before* the
`0 < RateLimit < 10 → RateLimit = 10` rounding bump, so the bucket
starts at the original value. -/
def loopInit (rl : Int) : LoopState :=
  { rateLimit := if 0 < rl ∧ rl < 10 then 10 else rl,
    tokenBucket := rl, processed := 0, dropped := 0 }

inductive LoopEvent
  | packet
  | refill
deriving DecidableEq, Repr

/-- The `socketChan` and `fillTokenBucket` cases of `DHT.loop`. -/
def loopStep (s : LoopState) : LoopEvent → LoopState
  | .packet =>
    if 0 < s.rateLimit then
      if 0 < s.tokenBucket then
        { s with processed := s.processed + 1, tokenBucket := s.tokenBucket - 1 }
      else { s with dropped := s.dropped + 1 }
    else { s with processed := s.processed + 1 }
  | .refill =>
    if s.tokenBucket < s.rateLimit then
      { s with tokenBucket := s.tokenBucket + s.rateLimit / 10 }
    else s

/-- The loop states reachable from startup with rate limit `rl`. -/
inductive LoopReach (rl : Int) : LoopState → Prop
  | init : LoopReach rl (loopInit rl)
  | step (s : LoopState) (e : LoopEvent) : LoopReach rl s → LoopReach rl (loopStep s e)

/-- C7 (amended): a processed packet consumes exactly one token; with an
empty bucket the packet is dropped and counted, not processed; a refill
tick adds `rateLimit/10` tokens only when the bucket is *below*
`rateLimit` (and nothing at or above it), so the bucket can overshoot:
the reachable-state bound is `rateLimit + rateLimit/10 - 1`, not
`rateLimit`; with rateLimit=10 a burst of 11 packets processes 10 and
drops 1, and the next tick refills 1 token. -/
theorem claim_C7 :
    (∀ s : LoopState, 0 < s.rateLimit → 0 < s.tokenBucket →
      loopStep s .packet =
        { s with processed := s.processed + 1, tokenBucket := s.tokenBucket - 1 }) ∧
    (∀ s : LoopState, 0 < s.rateLimit → s.tokenBucket ≤ 0 →
      loopStep s .packet = { s with dropped := s.dropped + 1 }) ∧
    (∀ s : LoopState, s.tokenBucket < s.rateLimit →
      loopStep s .refill = { s with tokenBucket := s.tokenBucket + s.rateLimit / 10 }) ∧
    (∀ s : LoopState, s.rateLimit ≤ s.tokenBucket → loopStep s .refill = s) ∧
    (∀ (rl : Int) (s : LoopState), 10 ≤ rl → LoopReach rl s →
      s.rateLimit = rl ∧ s.tokenBucket ≤ rl + rl / 10 - 1) ∧
    ((List.replicate 11 LoopEvent.packet).foldl loopStep (loopInit 10)).processed = 10 ∧
    ((List.replicate 11 LoopEvent.packet).foldl loopStep (loopInit 10)).dropped = 1 ∧
    (loopStep ((List.replicate 11 LoopEvent.packet).foldl loopStep (loopInit 10))
      .refill).tokenBucket = 1 := by
  refine ⟨?_, ?_, ?_, ?_, ?_, by decide, by decide, by decide⟩
  · intro s h1 h2
    rw [loopStep, if_pos h1, if_pos h2]
  · intro s h1 h2
    rw [loopStep, if_pos h1, if_neg (by omega)]
  · intro s h1
    rw [loopStep, if_pos h1]
  · intro s h1
    rw [loopStep, if_neg (by omega)]
  · intro rl s hrl h
    have hdiv : 1 ≤ rl / 10 := by omega
    induction h with
    | init =>
      constructor
      · show (if 0 < rl ∧ rl < 10 then 10 else rl) = rl
        rw [if_neg (by omega)]
      · show rl ≤ rl + rl / 10 - 1
        omega
    | step s e hs ih =>
      obtain ⟨ihr, iht⟩ := ih
      cases e with
      | packet =>
        rw [loopStep]
        by_cases h1 : 0 < s.rateLimit
        · rw [if_pos h1]
          by_cases h2 : 0 < s.tokenBucket
          · rw [if_pos h2]
            refine ⟨ihr, ?_⟩
            show s.tokenBucket - 1 ≤ rl + rl / 10 - 1
            omega
          · rw [if_neg h2]
            exact ⟨ihr, iht⟩
        · rw [if_neg h1]
          exact ⟨ihr, iht⟩
      | refill =>
        rw [loopStep]
        by_cases h1 : s.tokenBucket < s.rateLimit
        · rw [if_pos h1]
          refine ⟨ihr, ?_⟩
          show s.tokenBucket + s.rateLimit / 10 ≤ rl + rl / 10 - 1
          rw [ihr]
          rw [ihr] at h1
          omega
        · rw [if_neg h1]
          exact ⟨ihr, iht⟩

/-- Counterexample to the claimed `tokenBucket ≤ rateLimit` bound: with
rateLimit=20, one packet (bucket 19) then one refill tick yields 21. -/
theorem claim_C7_counterexample :
    LoopReach 20 (loopStep (loopStep (loopInit 20) .packet) .refill) ∧
    (loopStep (loopStep (loopInit 20) .packet) .refill).rateLimit = 20 ∧
    (loopStep (loopStep (loopInit 20) .packet) .refill).tokenBucket = 21 :=
  ⟨.step _ _ (.step _ _ .init), by decide, by decide⟩

/-! ## C8: reply correlation in processPacket -/

/-- The `y == "r"` branch of `processPacket` from the pendingQueries
correlation check on (dht.go:662-698): look the reply's transaction id up
in the *sender node's own* pending map; a miss changes nothing and skips
the upkeep; a hit marks the node reachable, stamps `LastResponseTime`,
copies the entry to `PastQueries`, deletes it from `PendingQueries`, and
runs `NeighborhoodUpkeep` plus the per-kind dispatch (the returned
flag). -/
def processReply (node : RemoteNode) (rT : String) (now : Int) :
    RemoteNode × Bool :=
  match mapGet node.PendingQueries rT with
  | none => (node, false)
  | some query =>
    ({ node with
        Reachable := true,
        LastResponseTime := now,
        PastQueries := mapPut node.PastQueries rT query,
        PendingQueries := mapDel node.PendingQueries rT },
      true)

/-- C8: an unknown transaction id leaves the node untouched and the
upkeep does not run; a present id marks the node reachable, stamps the
response time, copies the entry to pastQueries, removes it from
pendingQueries exactly once (the map shrinks by one and the id is gone),
leaves every other pending id alone, and runs the upkeep. -/
theorem claim_C8 :
    (∀ (node : RemoteNode) (rT : String) (now : Int),
      mapGet node.PendingQueries rT = none →
      processReply node rT now = (node, false)) ∧
    (∀ (node : RemoteNode) (rT : String) (now : Int) (q : QueryType),
      mapGet node.PendingQueries rT = some q →
      (processReply node rT now).2 = true ∧
      (processReply node rT now).1.Reachable = true ∧
      (processReply node rT now).1.LastResponseTime = now ∧
      mapGet (processReply node rT now).1.PastQueries rT = some q ∧
      ((node.PendingQueries.map (·.1)).Nodup →
        mapGet (processReply node rT now).1.PendingQueries rT = none ∧
        (processReply node rT now).1.PendingQueries.length + 1 =
          node.PendingQueries.length) ∧
      (∀ k2 : String, k2 ≠ rT →
        mapGet (processReply node rT now).1.PendingQueries k2 =
          mapGet node.PendingQueries k2)) := by
  constructor
  · intro node rT now hg
    rw [processReply, hg]
  · intro node rT now q hg
    rw [processReply, hg]
    refine ⟨rfl, rfl, rfl, ?_, ?_, ?_⟩
    · exact mapGet_mapPut_self _ _ _
    · intro hnd
      constructor
      · exact mapGet_mapDel_self hnd
      · exact length_mapDel_present (by rw [setMem, hg]; rfl)
    · intro k2 hk2
      exact mapGet_mapDel_ne hk2

/-! ## C10: the pending-query map is bounded by the transaction-id space -/

/-- `RemoteNode.NewQuery`: advance `LastQueryID` modulo 256, render it in
decimal, and file a fresh pending entry under that id. -/
def RemoteNode.NewQuery (r : RemoteNode) (transType : String) :
    RemoteNode × String :=
  let lq := (r.LastQueryID + 1) % 256
  let transId := toString lq
  ({ r with
      LastQueryID := lq,
      PendingQueries := mapPut r.PendingQueries transId { qtype := transType } },
    transId)

/-- The operations that touch a node's pending-query map: issuing a new
query, or processing a reply. -/
inductive NodeOp
  | newQuery (transType : String)
  | reply (rT : String) (now : Int)

def applyOp (r : RemoteNode) : NodeOp → RemoteNode
  | .newQuery t => (r.NewQuery t).1
  | .reply rT now => (processReply r rT now).1

/-- The canonical 256 transaction ids: decimal renderings of 0..255. -/
def canonicalIds : List String := (List.range 256).map toString

/-- The pending-map invariant: unique keys, all of them decimal
renderings of 0..255. -/
def PQInv (r : RemoteNode) : Prop :=
  (r.PendingQueries.map (·.1)).Nodup ∧
  ∀ k ∈ r.PendingQueries.map (·.1), k ∈ canonicalIds

theorem PQInv_applyOp {r : RemoteNode} (h : PQInv r) (op : NodeOp) :
    PQInv (applyOp r op) := by
  obtain ⟨hnd, hsub⟩ := h
  cases op with
  | newQuery t =>
    show PQInv (r.NewQuery t).1
    rw [RemoteNode.NewQuery]
    have hcan : toString ((r.LastQueryID + 1) % 256) ∈ canonicalIds :=
      List.mem_map.mpr ⟨(r.LastQueryID + 1) % 256,
        List.mem_range.mpr (Nat.mod_lt _ (by omega)), rfl⟩
    by_cases hm : setMem r.PendingQueries (toString ((r.LastQueryID + 1) % 256)) = true
    · refine ⟨?_, ?_⟩
      · show ((mapPut r.PendingQueries _ _).map (·.1)).Nodup
        rw [keys_mapPut_present hm]
        exact hnd
      · intro k hk
        rw [keys_mapPut_present hm] at hk
        exact hsub k hk
    · have hm2 : setMem r.PendingQueries (toString ((r.LastQueryID + 1) % 256)) = false := by
        cases hx : setMem r.PendingQueries (toString ((r.LastQueryID + 1) % 256))
        · rfl
        · exact absurd hx hm
      refine ⟨?_, ?_⟩
      · show ((mapPut r.PendingQueries _ _).map (·.1)).Nodup
        rw [keys_mapPut_absent hm2]
        refine List.Nodup.append hnd (List.nodup_singleton _) ?_
        intro a ha hb
        simp only [List.mem_singleton] at hb
        subst hb
        exact (mapGet_eq_none_iff.mp (setMem_false_iff.mp hm2)) ha
      · intro k hk
        rw [keys_mapPut_absent hm2] at hk
        rcases List.mem_append.mp hk with h | h
        · exact hsub k h
        · simp only [List.mem_singleton] at h
          rw [h]
          exact hcan
  | reply rT now =>
    show PQInv (processReply r rT now).1
    rw [processReply]
    cases hg : mapGet r.PendingQueries rT with
    | none => exact ⟨hnd, hsub⟩
    | some q =>
      refine ⟨?_, ?_⟩
      · exact List.Nodup.sublist
          (List.Sublist.map _ (mapDel_sublist r.PendingQueries rT)) hnd
      · intro k hk
        exact hsub k
          ((List.Sublist.map (·.1) (mapDel_sublist r.PendingQueries rT)).subset hk)

theorem PQInv_length {r : RemoteNode} (h : PQInv r) :
    r.PendingQueries.length ≤ 256 := by
  have hlen : (r.PendingQueries.map (·.1)).length ≤ canonicalIds.length :=
    (List.subperm_of_subset h.1 (fun a ha => h.2 a ha)).length_le
  rw [List.length_map] at hlen
  simpa [canonicalIds] using hlen

/-- C10: starting from an empty pending map, any sequence of new queries
and reply processing keeps at most 256 pending entries — transaction ids
are decimal strings of a counter advanced modulo 256, so a saturated map
only overwrites existing keys. -/
theorem claim_C10 (r0 : RemoteNode) (ops : List NodeOp)
    (h0 : r0.PendingQueries = []) :
    PQInv (ops.foldl applyOp r0) ∧
    (ops.foldl applyOp r0).PendingQueries.length ≤ 256 := by
  have hinv : PQInv (ops.foldl applyOp r0) := by
    have hstart : PQInv r0 := by
      rw [PQInv, h0]
      exact ⟨by simp, by simp⟩
    clear h0
    induction ops generalizing r0 with
    | nil => exact hstart
    | cons op rest ih =>
      rw [List.foldl_cons]
      exact ih (applyOp r0 op) (PQInv_applyOp hstart op)
  exact ⟨hinv, PQInv_length hinv⟩

def c10node : RemoteNode := { ID := List.replicate 20 1 }

/-- Witness for C10: a node with an empty pending map, driven by a
couple of operations. -/
theorem claim_C10_witness :
    PQInv ([NodeOp.newQuery "ping", NodeOp.newQuery "find_node",
        NodeOp.reply "2" 5].foldl applyOp c10node) ∧
    ([NodeOp.newQuery "ping", NodeOp.newQuery "find_node",
        NodeOp.reply "2" 5].foldl applyOp c10node).PendingQueries.length ≤ 256 :=
  claim_C10 c10node
    [NodeOp.newQuery "ping", NodeOp.newQuery "find_node", NodeOp.reply "2" 5] rfl

end Dht
